import Mathlib

/-!
Shallow embedding of the graph-validation and canonicalization engine of the
`standard_morph` repository (source files `standard_morph/tools.py` and
`standard_morph/Standardizer.py`).

Modelling conventions:
* SWC records are fixed-field structures; the numeric coordinate columns are
  modelled as exact rationals, and the integer columns as `Int`.
* pandas dataframe operations (boolean masks, `map`, `itertuples`) become the
  corresponding `List` operations, preserving row order.
* The finding dictionaries built in `tools.py` carry exactly the keys
  `test`, `description`, `nodes_with_error`; they are modelled as a structure,
  and the generic `dict.get` used by `Standardizer._append_if_error` is
  modelled by an explicit key-indexed accessor over those three keys.
* The `while` loop of `check_cycles_and_topological_sort` is modelled with an
  explicit fuel parameter; the fuel chosen in the embedded program is proved
  sufficient for every input (`dfsGo_ne_fuelOut`), so the embedding computes
  exactly what the unbounded loop computes.
* Python `float` truthiness (`not allow_soma_children_to_branch` applied to a
  float) is modelled by `pyTruthy`.
* The comparison `distance > threshold`, where the source computes
  `distance = (sum of squares) ** 0.5`, is decided exactly on rationals by
  `distGT` applied to the squared distance; `distGT_iff_sqrt` proves it
  equivalent to the real square-root comparison.
-/

namespace StandardMorph

/-- One SWC input record, the row shape `Standardizer.load_data` produces:
columns `node_id, compartment, x, y, z, r, parent` (`SWC_COLUMN_NAMES`),
with `node_id`, `compartment`, `parent` cast to int (`COLUMN_CASTS`). -/
structure NodeRec where
  node_id : Int
  compartment : Int
  x : ℚ
  y : ℚ
  z : ℚ
  r : ℚ
  parent : Int
deriving DecidableEq, Repr

/-- A row of `Standardizer.morph_df` after `extract_node_relationships`:
the input columns plus the derived `number_of_children` and
`parent_node_type` columns (the latter is `none` where pandas leaves NaN). -/
structure MorphRec where
  node_id : Int
  compartment : Int
  x : ℚ
  y : ℚ
  z : ℚ
  r : ℚ
  parent : Int
  number_of_children : Nat
  parent_node_type : Option Int
deriving DecidableEq, Repr

/-- The ordered children of `pid`: `extract_node_relationships` appends
`nid` to `child_ids_dict[pid]` for every row `(nid, pid)` with `pid != -1`,
in row order. -/
def childList (rows : List NodeRec) (pid : Int) : List Int :=
  (rows.filter fun row => row.parent == pid && !(row.parent == -1)).map
    fun row => row.node_id

/-- Lookup of a node identifier in the node-id-indexed frame, as used by
`swc_df["parent"].map(swc_df["compartment"])`; `none` models NaN (the id
does not resolve).  Assumes unique node ids, as pandas raises on a
duplicated index here. -/
def compartmentOf (rows : List NodeRec) (nid : Int) : Option Int :=
  (rows.find? fun row => row.node_id == nid).map fun row => row.compartment

/-- The derived columns for one row, per `extract_node_relationships`:
`number_of_children` is the length of the child list (0 when absent, the
`fillna(0)` fallback) and `parent_node_type` resolves the parent id. -/
def morphOf (rows : List NodeRec) (row : NodeRec) : MorphRec :=
  { node_id := row.node_id, compartment := row.compartment,
    x := row.x, y := row.y, z := row.z, r := row.r, parent := row.parent,
    number_of_children := (childList rows row.node_id).length,
    parent_node_type := compartmentOf rows row.parent }

/-- `Standardizer.extract_node_relationships`: the morph dataframe built from
the loaded rows. -/
def extract_node_relationships (rows : List NodeRec) : List MorphRec :=
  rows.map (morphOf rows)

/-- An offender entry, the tuple `(node_id, x, y, z)` produced by
`itertuples` over the error rows. -/
abbrev Offender := Int × ℚ × ℚ × ℚ

def offenderOf (row : MorphRec) : Offender := (row.node_id, row.x, row.y, row.z)

/-- One QC finding dictionary: keys `test`, `description`,
`nodes_with_error` (offender list, or `none` for the Python `None`). -/
structure Finding where
  test : String
  description : String
  nodes_with_error : Option (List Offender)
deriving DecidableEq, Repr

/-- The `soma_children_furcation_test` dictionary as initialised (no error). -/
def soma_children_furcation_base : Finding :=
  { test := "SomaChildrenFurcation",
    description := "Children nodes of the soma should not branch. Returned node IDs are soma children that branch.",
    nodes_with_error := none }

/-- The `soma_children_distance_test` dictionary as initialised.  The source
interpolates the numeric threshold into the message text; the text is kept
constant here. -/
def soma_children_distance_base : Finding :=
  { test := "SomaChildrenDistance",
    description := "Immediate children of the soma should be within the configured distance in microns. Returned node IDs exceed that distance.",
    nodes_with_error := none }

/-- The `n_soma_error` dictionary as initialised. -/
def number_of_somas_base : Finding :=
  { test := "NumberOfSomas",
    description := "There should be exactly one node with type=1 and parent=-1. Returned node IDs do not meet this criterion.",
    nodes_with_error := none }

/-- `soma_df`: rows with `compartment == 1` and `parent == -1`. -/
def somaRows (m : List MorphRec) : List MorphRec :=
  m.filter fun row => row.compartment == 1 && row.parent == -1

/-- Squared Euclidean distance between two points, the sum of squares inside
`euclidean_distance`. -/
def sqDist3 (x1 y1 z1 x2 y2 z2 : ℚ) : ℚ :=
  (x1 - x2) * (x1 - x2) + (y1 - y2) * (y1 - y2) + (z1 - z2) * (z1 - z2)

/-- Exact decision of `Real.sqrt s > thr` for a nonnegative squared distance
`s`: the source compares `s ** 0.5 > thr` on floats; on rationals the same
comparison is decided without square roots. -/
def distGT (s thr : ℚ) : Bool :=
  if thr < 0 then true else decide (thr * thr < s)

/-- `soma_and_soma_children_qc(df, allow_soma_children_to_branch,
soma_child_distance_threshold)` from `tools.py`: returns the list
`[n_soma_error, soma_children_furcation_test, soma_children_distance_test]`
in that order. -/
def soma_and_soma_children_qc (m : List MorphRec)
    (allow_soma_children_to_branch : Bool)
    (soma_child_distance_threshold : ℚ) : List Finding :=
  match somaRows m with
  | [soma] =>
    let soma_children := m.filter fun row => row.parent == soma.node_id
    let problem_branch := soma_children.filter fun row =>
      !(row.number_of_children == 1)
    let furc :=
      if !problem_branch.isEmpty && !allow_soma_children_to_branch then
        { soma_children_furcation_base with
            nodes_with_error := some (problem_branch.map offenderOf) }
      else soma_children_furcation_base
    let problem_dist := soma_children.filter fun row =>
      distGT (sqDist3 row.x row.y row.z soma.x soma.y soma.z)
        soma_child_distance_threshold
    let dist :=
      if !problem_dist.isEmpty then
        { soma_children_distance_base with
            nodes_with_error := some (problem_dist.map offenderOf) }
      else soma_children_distance_base
    [number_of_somas_base, furc, dist]
  | soma_df =>
    let nsoma :=
      { number_of_somas_base with
          nodes_with_error :=
            some (if soma_df.isEmpty then [(1, 0, 0, 0)]
                  else soma_df.map offenderOf) }
    [nsoma, soma_children_furcation_base, soma_children_distance_base]

/-- The `axon_origination_error` dictionary as initialised. -/
def axon_origins_base : Finding :=
  { test := "AxonOrigins",
    description := "Axon should originate from a single location and stem from axon, soma, or basal dendrite.",
    nodes_with_error := none }

/-- The exception message for `int(...)` applied to NaN. -/
def msgIntOfNaN : String := "ValueError: cannot convert float NaN to integer"

/-- `axon_origination_qc(df)` from `tools.py`.  `axon_origination_df` keeps
axon rows whose `parent_node_type != 2` (NaN compares unequal, hence `none`
rows are kept).  When exactly one origin exists the source evaluates
`int(axon_origination_df['parent_node_type'].values[0])`, which raises
ValueError when that value is NaN; this is the `Except.error` branch.
The source wraps the finding in a singleton list. -/
def axon_origination_qc (m : List MorphRec) : Except String Finding :=
  let origins := (m.filter fun row => row.compartment == 2).filter
    fun row => !(row.parent_node_type == some 2)
  match origins with
  | [origin] =>
    match origin.parent_node_type with
    | none => Except.error msgIntOfNaN
    | some t =>
      if t = 1 ∨ t = 3 then Except.ok axon_origins_base
      else
        Except.ok { axon_origins_base with
                      nodes_with_error := some [offenderOf origin] }
  | origins_df =>
    Except.ok { axon_origins_base with
                  nodes_with_error := some (origins_df.map offenderOf) }

/-- The `orphaned_node_error` dictionary as initialised. -/
def orphaned_nodes_base : Finding :=
  { test := "OrphanedNodes",
    description := "Nodes with missing or incorrect parent assignments.",
    nodes_with_error := none }

/-- `orphan_node_check(df)` from `tools.py`: flags rows with NaN
`parent_node_type` and `parent != -1`.  The source wraps the finding in a
singleton list. -/
def orphan_node_check (m : List MorphRec) : Finding :=
  let orphaned := m.filter fun row =>
    row.parent_node_type.isNone && !(row.parent == -1)
  if orphaned.isEmpty then orphaned_nodes_base
  else { orphaned_nodes_base with
           nodes_with_error := some (orphaned.map offenderOf) }

/-- The `DendriteOrigins` dictionary as initialised. -/
def dendrite_origins_base : Finding :=
  { test := "DendriteOrigins",
    description := "Dendritic nodes should originate from soma or matching dendrite type.",
    nodes_with_error := none }

/-- The invalid dendrite origins contributed by compartment group `comp`:
rows of that compartment whose `parent_node_type` differs from the group
compartment and from 1 (soma); NaN (`none`) compares unequal to both. -/
def dendriteInvalidFor (m : List MorphRec) (comp : Int) : List Offender :=
  (((m.filter fun row => row.compartment == comp).filter
      fun row => !(row.parent_node_type == some comp)).filter
      fun row => !(row.parent_node_type == some 1)).map offenderOf

/-- `dendrite_origins_qc(df)` from `tools.py`.  pandas `groupby` iterates
present compartment groups in ascending key order; iterating the fixed
compartments 3 then 4 is equivalent because an absent group contributes an
empty list.  The source wraps the finding in a singleton list. -/
def dendrite_origins_qc (m : List MorphRec) : Finding :=
  let invalid := dendriteInvalidFor m 3 ++ dendriteInvalidFor m 4
  if invalid.isEmpty then dendrite_origins_base
  else { dendrite_origins_base with nodes_with_error := some invalid }

/-- Result of the traversal loop in `check_cycles_and_topological_sort`:
either the fuel ran out (never happens at the fuel the embedded program
uses, see `dfsGo_ne_fuelOut`), or a node was popped twice (cycle), or the
loop finished with the full visitation list. -/
inductive DfsResult where
  | fuelOut : DfsResult
  | cycle : DfsResult
  | done (visited : List Int) : DfsResult
deriving DecidableEq, Repr

/-- `child_dict.get(k, [])` for an association-list dictionary. -/
def dictGet (d : List (Int × List Int)) (k : Int) : List Int :=
  match d.find? fun p => p.1 == k with
  | some p => p.2
  | none => []

/-- The nested loops of `check_cycles_and_topological_sort`: an outer loop
over the remaining roots and an inner `while stack` loop.  Popping from the
left of the deque takes the list head; `appendleft` of each child in
child-list order places the reversed child list at the front.  The source
appends to `visited` and adds to `seen_ids` together, so the seen set is
exactly the set of visited nodes and the `current_node in seen_ids` test is
membership in `visited`. -/
def dfsGo (child : Int → List Int) :
    Nat → List Int → List Int → List Int → DfsResult
  | 0, _, _, _ => DfsResult.fuelOut
  | Nat.succ f, roots, stack, visited =>
    match stack with
    | [] =>
      match roots with
      | [] => DfsResult.done visited
      | r :: rs => dfsGo child f rs [r] visited
    | c :: rest =>
      if c ∈ visited then DfsResult.cycle
      else dfsGo child f roots ((child c).reverse ++ rest) (visited ++ [c])

/-- `{old_id: new_id for new_id, old_id in enumerate(visited, 1)}`, with the
counter threaded explicitly.  `visited` is duplicate-free in every `done`
run (`dfsGo_done_nodup`), so first-match lookup on this association list
agrees with the Python dict built by the comprehension. -/
def mkMappingFrom : Nat → List Int → List (Int × Nat)
  | _, [] => []
  | k, a :: l => (a, k) :: mkMappingFrom (k + 1) l

def mkMapping (v : List Int) : List (Int × Nat) := mkMappingFrom 1 v

/-- Dictionary lookup `mapping.get(k)` on the old-to-new id mapping. -/
def alookup (mp : List (Int × Nat)) (k : Int) : Option Nat :=
  (mp.find? fun p => p.1 == k).map fun p => p.2

/-- Every value stored in the child dictionary. -/
def dictVals (d : List (Int × List Int)) : List Int :=
  (d.map fun p => p.2).flatten

/-- Every identifier the traversal can ever push: the roots and the child
dictionary values.  Used to size the fuel. -/
def dfsUniverse (d : List (Int × List Int)) (ro : List Int) : List Int :=
  (ro ++ dictVals d).dedup

/-- Fuel sufficient for the whole traversal: one step per root transition,
one per first visit of a node (bounded by the universe), plus slack for the
final step and a possible repeat pop (`dfsGo_ne_fuelOut`). -/
def dfsFuel (d : List (Int × List Int)) (ro : List Int) : Nat :=
  ro.length + (dfsUniverse d ro).length + 2

/-- The `CheckForLoops` report dictionary as initialised (no cycle). -/
def check_loops_clean : Finding :=
  { test := "CheckForLoops",
    description := "Check if loops exist in reconstruction.",
    nodes_with_error := none }

/-- The `CheckForLoops` report after a repeated pop: the single synthetic
offender `(1, 0, 0, 0)`. -/
def check_loops_cycle : Finding :=
  { check_loops_clean with nodes_with_error := some [(1, 0, 0, 0)] }

/-- `check_cycles_and_topological_sort(df, child_dict)` from `tools.py`.
The dataframe is consulted only for
`root_nodes = set(df.loc[df['parent'] == -1, 'node_id'])`; a Python set
iterates in an implementation-defined order, so the traversal is
parameterized by that iteration order `ro` (constrained to enumerate the
distinct roots via `isRootOrder` in the theorems).  Returns the report and
the old-to-new mapping; on a repeated pop it returns the synthetic single
offender and an empty mapping. -/
def check_cycles_and_topological_sort (d : List (Int × List Int))
    (ro : List Int) : Finding × List (Int × Nat) :=
  match dfsGo (dictGet d) (dfsFuel d ro) ro [] [] with
  | DfsResult.done visited => (check_loops_clean, mkMapping visited)
  | _ => (check_loops_cycle, [])

/-- Append `v` to the entry of key `k`, keeping insertion order of keys, as
`defaultdict(list)` does. -/
def dictUpsert (d : List (Int × List Int)) (k : Int) (v : Int) :
    List (Int × List Int) :=
  match d with
  | [] => [(k, [v])]
  | (k1, vs) :: rest =>
    if k1 = k then (k1, vs ++ [v]) :: rest else (k1, vs) :: dictUpsert rest k v

/-- `child_ids_dict` built by `extract_node_relationships`: for each row in
order, append `node_id` to the entry of its parent when the parent is not
the root marker. -/
def buildChildDict (rows : List NodeRec) : List (Int × List Int) :=
  rows.foldl
    (fun d row =>
      if row.parent ≠ -1 then dictUpsert d row.parent row.node_id else d)
    []

/-- `df.loc[df['parent'] == -1, 'node_id']`, in row order. -/
def rootIds (rows : List NodeRec) : List Int :=
  (rows.filter fun row => row.parent == -1).map fun row => row.node_id

/-- `ro` is a possible iteration order of the Python set of root ids:
a permutation of the distinct roots. -/
def isRootOrder (rows : List NodeRec) (ro : List Int) : Prop :=
  ro.Perm (rootIds rows).dedup

/-- Truthiness of a Python float, as applied by
`if not allow_soma_children_to_branch` when a float is passed for that
parameter: `0.0` is falsy, everything else truthy. -/
def pyTruthy (q : ℚ) : Bool := q != 0

/-- The key `Standardizer._append_if_error` looks up. -/
def appendKey : String := "node_ids_with_error"

/-- Python `report.get(key)` on a finding dictionary, specialised to
offender-valued results: the keys present are exactly `test`, `description`
and `nodes_with_error`, so an offender list comes back only for the key
`nodes_with_error` (and only when the stored value is not None); any other
key is absent and yields None. -/
def findingGetOffenders (f : Finding) (key : String) :
    Option (List Offender) :=
  if key = "nodes_with_error" then f.nodes_with_error else none

/-- `Standardizer._append_if_error`: append each report whose
`report.get('node_ids_with_error')` is not None to the error list. -/
def append_if_error (errors : List Finding) (reports : List Finding) :
    List Finding :=
  errors ++ reports.filter fun rep =>
    (findingGetOffenders rep appendKey).isSome

/-- `Standardizer.validate` restricted to the error-report accumulation, in
source order, under the default configuration (no filename check, no soma
MIP).  The source passes `self.soma_children_distance_threshold`
positionally as the second argument of `soma_and_soma_children_qc`, i.e.
into `allow_soma_children_to_branch` (as a truthy float), while the distance
threshold keeps its default 50.  `ro` is the set iteration order over the
roots, as in `check_cycles_and_topological_sort`.  An exception escaping a
rule aborts validation (`Except.error`). -/
def validate_errors (rows : List NodeRec) (thr : ℚ) (ro : List Int) :
    Except String (List Finding) :=
  let m := extract_node_relationships rows
  let e1 := append_if_error [] (soma_and_soma_children_qc m (pyTruthy thr) 50)
  match axon_origination_qc m with
  | Except.error msg => Except.error msg
  | Except.ok af =>
    let e2 := append_if_error e1 [af]
    let e3 := append_if_error e2 [dendrite_origins_qc m]
    let e4 := append_if_error e3 [orphan_node_check m]
    let cyc := (check_cycles_and_topological_sort (buildChildDict rows) ro).1
    Except.ok (append_if_error e4 [cyc])

/-- An output row of `Standardizer.write_to_swc` after the column maps:
`node_id` becomes the mapped id (`none` models the NaN a missing entry
leaves, since that column has no `fillna`), `parent` becomes the mapped
parent with `fillna(-1)`. -/
structure OutRec where
  node_id : Option Int
  compartment : Int
  x : ℚ
  y : ℚ
  z : ℚ
  r : ℚ
  parent : Int
deriving DecidableEq, Repr

/-- The per-row effect of
`output_df['node_id'] = output_df['node_id'].map(node_mapping)` and
`output_df['parent'] = output_df['parent'].map(node_mapping).fillna(-1)`. -/
def writeRow (mp : List (Int × Nat)) (row : MorphRec) : OutRec :=
  { node_id := (alookup mp row.node_id).map fun k => (k : Int),
    compartment := row.compartment,
    x := row.x, y := row.y, z := row.z, r := row.r,
    parent :=
      match alookup mp row.parent with
      | some k => (k : Int)
      | none => -1 }

/-- `Standardizer.write_to_swc` restricted to the id-relabelling of the
rows: when the mapping is empty the rows are written unchanged, otherwise
both id columns are mapped. -/
def write_to_swc_rows (mp : List (Int × Nat)) (m : List MorphRec) :
    List OutRec :=
  if mp.isEmpty then
    m.map fun row =>
      { node_id := some row.node_id, compartment := row.compartment,
        x := row.x, y := row.y, z := row.z, r := row.r,
        parent := row.parent }
  else m.map (writeRow mp)

/-- Reference depth-first pre-order with children taken in reverse
child-list order, the recursion the stack discipline of `dfsGo` implements
(established by `check_cycles_eq_preorder`): visit the node, then each child
subtree, children in reverse input order.  Fuel-indexed; stable once the
fuel exceeds the `hmeas` measure of the node. -/
def preTrav (child : Int → List Int) : Nat → Int → List Int
  | 0, _ => []
  | Nat.succ f, n => n :: ((child n).reverse.flatMap (preTrav child f))

/-- Reachability along child edges: the nodes the traversal can reach from
`a`. -/
inductive Reach (child : Int → List Int) : Int → Int → Prop
  | refl (n : Int) : Reach child n n
  | step {p c x : Int} : c ∈ child p → Reach child c x → Reach child p x

/-- A back-edge: some node reachable from itself in at least one
parent-to-child step. -/
def HasBackEdge (child : Int → List Int) (x : Int) : Prop :=
  ∃ c ∈ child x, Reach child c x

instance (rows : List NodeRec) (ro : List Int) :
    Decidable (isRootOrder rows ro) :=
  List.decidablePerm ro (rootIds rows).dedup

/-- Position of the first occurrence of `x` in `v` (length of `v` when
absent); the canonical number assigned by `mkMapping` is this rank plus
one. -/
def rankOf : List Int → Int → Nat
  | [], _ => 0
  | a :: l, x => if a = x then 0 else rankOf l x + 1

/-- Termination measure for the reference preorder: the number of universe
nodes strictly deeper than `n` under a depth certificate `d`. -/
def hmeas (U : List Int) (d : Int → Nat) (n : Int) : Nat :=
  (U.filter fun i => decide (d n < d i)).length

/-- The reference preorder at a canonical fuel: `U.length + 1` always
exceeds `hmeas U d n`, so `preOrd` is the fixed point of the reversed-child
preorder recursion whenever a depth certificate over `U` exists
(`preOrd_unfold`). -/
def preOrd (child : Int → List Int) (U : List Int) (n : Int) : List Int :=
  preTrav child (U.length + 1) n

/-- The visitation order the completed traversal realises (established by
`c2_amended_reverse_child_order`): the concatenation, in root-iteration
order, of the reference preorders that take each node's children in reverse
child-list order. -/
def dfsPreorder (rows : List NodeRec) (ro : List Int) : List Int :=
  ro.flatMap (preOrd (childList rows) (dfsUniverse (buildChildDict rows) ro))

/-- Fixture: one root (id 1) with two children in input order 2 then 3. -/
def rowsTwoChildren : List NodeRec :=
  [ { node_id := 1, compartment := 1, x := 0, y := 0, z := 0, r := 1, parent := -1 },
    { node_id := 2, compartment := 3, x := 1, y := 0, z := 0, r := 1, parent := 1 },
    { node_id := 3, compartment := 3, x := 2, y := 0, z := 0, r := 1, parent := 1 } ]

/-- Fixture: a two-node parent cycle with no root (1 and 2 are each others
parent). -/
def rowsRootlessCycle : List NodeRec :=
  [ { node_id := 1, compartment := 2, x := 0, y := 0, z := 0, r := 1, parent := 2 },
    { node_id := 2, compartment := 2, x := 1, y := 0, z := 0, r := 1, parent := 1 } ]

/-- Fixture: the cyclic graph of the repository test `test_cycles.py`: a
rooted chain 1-2-3-4-5 whose node 2 recurs with parent 5, closing a loop
reachable from the root. -/
def rowsReachableCycle : List NodeRec :=
  [ { node_id := 1, compartment := 1, x := 0, y := 0, z := 0, r := 1, parent := -1 },
    { node_id := 2, compartment := 2, x := 0, y := 0, z := 0, r := 1, parent := 1 },
    { node_id := 3, compartment := 2, x := 0, y := 0, z := 0, r := 1, parent := 2 },
    { node_id := 4, compartment := 2, x := 0, y := 0, z := 0, r := 1, parent := 3 },
    { node_id := 5, compartment := 2, x := 0, y := 0, z := 0, r := 1, parent := 4 },
    { node_id := 2, compartment := 2, x := 0, y := 0, z := 0, r := 1, parent := 5 } ]

/-- Fixture: two soma roots (ids 1 and 2) and one dendrite child of the
first. -/
def rowsTwoSomas : List NodeRec :=
  [ { node_id := 1, compartment := 1, x := 0, y := 0, z := 0, r := 1, parent := -1 },
    { node_id := 2, compartment := 1, x := 5, y := 0, z := 0, r := 1, parent := -1 },
    { node_id := 3, compartment := 3, x := 1, y := 0, z := 0, r := 1, parent := 1 } ]

/-- Fixture: soma at the origin with a single child at distance 60, which
itself has one child (so the furcation rule is satisfied). -/
def rowsFarChild : List NodeRec :=
  [ { node_id := 1, compartment := 1, x := 0, y := 0, z := 0, r := 1, parent := -1 },
    { node_id := 2, compartment := 3, x := 60, y := 0, z := 0, r := 1, parent := 1 },
    { node_id := 3, compartment := 3, x := 61, y := 0, z := 0, r := 1, parent := 2 } ]

/-- Fixture: soma whose immediate child (id 2) branches into two children. -/
def rowsBranchingChild : List NodeRec :=
  [ { node_id := 1, compartment := 1, x := 0, y := 0, z := 0, r := 1, parent := -1 },
    { node_id := 2, compartment := 3, x := 1, y := 0, z := 0, r := 1, parent := 1 },
    { node_id := 3, compartment := 3, x := 2, y := 0, z := 0, r := 1, parent := 2 },
    { node_id := 4, compartment := 3, x := 3, y := 0, z := 0, r := 1, parent := 2 } ]

/-- Fixture: a single axon node whose parent is the root marker, so its
parent compartment type is undefined (NaN). -/
def rowsLoneAxon : List NodeRec :=
  [ { node_id := 1, compartment := 2, x := 0, y := 0, z := 0, r := 1, parent := -1 } ]

/-- Fixture: two rooted trees with root ids 1 and 32 (CPython iterates the
set containing 1 and 32 as 32 first, since 32 hashes to slot 0 of the
8-slot table). -/
def rowsTwoRoots : List NodeRec :=
  [ { node_id := 1, compartment := 1, x := 0, y := 0, z := 0, r := 1, parent := -1 },
    { node_id := 32, compartment := 1, x := 9, y := 0, z := 0, r := 1, parent := -1 },
    { node_id := 2, compartment := 3, x := 1, y := 0, z := 0, r := 1, parent := 1 },
    { node_id := 33, compartment := 3, x := 9, y := 1, z := 0, r := 1, parent := 32 } ]

/-- Fixture: a basal dendrite node (id 2) whose parent id 99 resolves to no
node in the set. -/
def rowsOrphanDendrite : List NodeRec :=
  [ { node_id := 1, compartment := 1, x := 0, y := 0, z := 0, r := 1, parent := -1 },
    { node_id := 2, compartment := 3, x := 1, y := 0, z := 0, r := 1, parent := 99 } ]

/-- Fixture: a tree on which every soma rule passes: soma, one child at
distance 10 with exactly one child of its own. -/
def rowsValidSoma : List NodeRec :=
  [ { node_id := 1, compartment := 1, x := 0, y := 0, z := 0, r := 1, parent := -1 },
    { node_id := 2, compartment := 3, x := 10, y := 0, z := 0, r := 1, parent := 1 },
    { node_id := 3, compartment := 3, x := 20, y := 0, z := 0, r := 1, parent := 2 } ]

/-! ### Evaluation helpers for the concrete fixtures -/

theorem distGT_3600_50 : distGT (sqDist3 60 0 0 0 0 0) 50 = true := by
  norm_num [distGT, sqDist3]

theorem distGT_3600_70 : distGT (sqDist3 60 0 0 0 0 0) 70 = false := by
  norm_num [distGT, sqDist3]

theorem distGT_1_50 : distGT (sqDist3 1 0 0 0 0 0) 50 = false := by
  norm_num [distGT, sqDist3]

theorem distGT_100_50 : distGT (sqDist3 10 0 0 0 0 0) 50 = false := by
  norm_num [distGT, sqDist3]

/-- The morph dataframe of `rowsFarChild`, spelled out. -/
theorem extract_rowsFarChild :
    extract_node_relationships rowsFarChild =
      [ { node_id := 1, compartment := 1, x := 0, y := 0, z := 0, r := 1,
          parent := -1, number_of_children := 1, parent_node_type := none },
        { node_id := 2, compartment := 3, x := 60, y := 0, z := 0, r := 1,
          parent := 1, number_of_children := 1, parent_node_type := some 1 },
        { node_id := 3, compartment := 3, x := 61, y := 0, z := 0, r := 1,
          parent := 2, number_of_children := 0, parent_node_type := some 3 } ] := by
  decide

/-- The morph dataframe of `rowsBranchingChild`, spelled out. -/
theorem extract_rowsBranchingChild :
    extract_node_relationships rowsBranchingChild =
      [ { node_id := 1, compartment := 1, x := 0, y := 0, z := 0, r := 1,
          parent := -1, number_of_children := 1, parent_node_type := none },
        { node_id := 2, compartment := 3, x := 1, y := 0, z := 0, r := 1,
          parent := 1, number_of_children := 2, parent_node_type := some 1 },
        { node_id := 3, compartment := 3, x := 2, y := 0, z := 0, r := 1,
          parent := 2, number_of_children := 0, parent_node_type := some 3 },
        { node_id := 4, compartment := 3, x := 3, y := 0, z := 0, r := 1,
          parent := 2, number_of_children := 0, parent_node_type := some 3 } ] := by
  decide

/-- The morph dataframe of `rowsValidSoma`, spelled out. -/
theorem extract_rowsValidSoma :
    extract_node_relationships rowsValidSoma =
      [ { node_id := 1, compartment := 1, x := 0, y := 0, z := 0, r := 1,
          parent := -1, number_of_children := 1, parent_node_type := none },
        { node_id := 2, compartment := 3, x := 10, y := 0, z := 0, r := 1,
          parent := 1, number_of_children := 1, parent_node_type := some 1 },
        { node_id := 3, compartment := 3, x := 20, y := 0, z := 0, r := 1,
          parent := 2, number_of_children := 0, parent_node_type := some 3 } ] := by
  decide

/-- Soma QC over `rowsValidSoma` with the documented default flag: all three
findings pass. -/
theorem somaqc_validSoma :
    soma_and_soma_children_qc (extract_node_relationships rowsValidSoma)
      false 50 =
      [number_of_somas_base, soma_children_furcation_base,
        soma_children_distance_base] := by
  rw [extract_rowsValidSoma]
  have hd : distGT (sqDist3 10 0 0 0 0 0) 50 = false := distGT_100_50
  simp +decide [soma_and_soma_children_qc, somaRows, offenderOf, List.filter, hd]

/-! ### Claim C6 -/

/-- C6: the claim that `axon_origination_qc` returns a finding without
raising for every graph model is false: on a model whose single axon entry
point has the root marker as parent (so its parent compartment type is
undefined), the rule evaluates `int(...)` on NaN and raises ValueError.
The second conjunct shows the zero-entry-point case of the claim does
return a finding. -/
theorem c6_axon_rule_raises_on_nan_origin :
    axon_origination_qc (extract_node_relationships rowsLoneAxon) =
      Except.error msgIntOfNaN ∧
    axon_origination_qc (extract_node_relationships rowsValidSoma) =
      Except.ok { axon_origins_base with nodes_with_error := some [] } :=
  ⟨rfl, rfl⟩

/-! ### Claim C3 -/

/-- C3: the engine does not wire `soma_children_distance_threshold` into the
distance rule.  `Standardizer.validate` passes the threshold positionally
into `allow_soma_children_to_branch`, so the distance comparison always uses
the default 50: with the engine configured at threshold 70, the soma child
at distance 60 is still flagged (the claim says it must pass), exactly as
with threshold 50 (first two conjuncts model the engine call
`soma_and_soma_children_qc(morph_df, threshold)`).  The third conjunct
shows the rule itself honours an explicitly passed threshold 70. -/
theorem c3_engine_distance_threshold_not_wired :
    (soma_and_soma_children_qc (extract_node_relationships rowsFarChild)
        (pyTruthy 70) 50).get? 2 =
      some { soma_children_distance_base with
               nodes_with_error := some [(2, 60, 0, 0)] } ∧
    (soma_and_soma_children_qc (extract_node_relationships rowsFarChild)
        (pyTruthy 50) 50).get? 2 =
      some { soma_children_distance_base with
               nodes_with_error := some [(2, 60, 0, 0)] } ∧
    (soma_and_soma_children_qc (extract_node_relationships rowsFarChild)
        false 70).get? 2 = some soma_children_distance_base := by
  rw [extract_rowsFarChild]
  have h1 : distGT (sqDist3 60 0 0 0 0 0) 50 = true := distGT_3600_50
  have h2 : distGT (sqDist3 60 0 0 0 0 0) 70 = false := distGT_3600_70
  refine ⟨?_, ?_, ?_⟩ <;>
    simp +decide [soma_and_soma_children_qc, somaRows, pyTruthy, offenderOf,
      List.filter, h1, h2]

/-! ### Claim C4 -/

/-- C4: under the default engine configuration the furcation rule never
flags anything: `Standardizer.validate` passes the distance threshold
(default 50, truthy) positionally into `allow_soma_children_to_branch`, so
the soma child with two children is not flagged (first conjunct models the
engine call), although the rule with the documented default
`allow_soma_children_to_branch=False` flags exactly that child (second
conjunct). -/
theorem c4_engine_furcation_suppressed :
    (soma_and_soma_children_qc (extract_node_relationships rowsBranchingChild)
        (pyTruthy 50) 50).get? 1 = some soma_children_furcation_base ∧
    (soma_and_soma_children_qc (extract_node_relationships rowsBranchingChild)
        false 50).get? 1 =
      some { soma_children_furcation_base with
               nodes_with_error := some [(2, 1, 0, 0)] } := by
  rw [extract_rowsBranchingChild]
  have h1 : distGT (sqDist3 1 0 0 0 0 0) 50 = false := distGT_1_50
  refine ⟨?_, ?_⟩ <;>
    simp +decide [soma_and_soma_children_qc, somaRows, pyTruthy, offenderOf,
      List.filter, h1]

/-! ### Claim C8 -/

/-- C8 counterexample: the claim that the furcation and distance outcomes
carry a marker distinguishable from a pass when the soma count differs from
one is false: on the two-soma fixture both findings are byte-for-byte equal
to the findings returned for a tree on which those rules were evaluated and
passed. -/
theorem c8_counterexample_same_shape_as_pass :
    (somaRows (extract_node_relationships rowsTwoSomas)).length = 2 ∧
    (soma_and_soma_children_qc (extract_node_relationships rowsTwoSomas)
        false 50).get? 1 =
      (soma_and_soma_children_qc (extract_node_relationships rowsValidSoma)
        false 50).get? 1 ∧
    (soma_and_soma_children_qc (extract_node_relationships rowsTwoSomas)
        false 50).get? 2 =
      (soma_and_soma_children_qc (extract_node_relationships rowsValidSoma)
        false 50).get? 2 := by
  refine ⟨by decide, ?_, ?_⟩ <;> rw [somaqc_validSoma] <;> decide

/-- C8 amended: whenever the soma-at-root count differs from one,
`soma_and_soma_children_qc` returns the furcation and distance findings
with offender value None, the same shape as an evaluated-and-passed rule;
the precondition failure is signalled only through the `NumberOfSomas`
finding (and a runtime warning). -/
theorem c8_amended_inconclusive_shape (m : List MorphRec) (allow : Bool)
    (thr : ℚ) (h : (somaRows m).length ≠ 1) :
    (soma_and_soma_children_qc m allow thr).get? 1 =
      some soma_children_furcation_base ∧
    (soma_and_soma_children_qc m allow thr).get? 2 =
      some soma_children_distance_base := by
  rcases hs : somaRows m with _ | ⟨a, _ | ⟨b, t⟩⟩
  · constructor <;> simp [soma_and_soma_children_qc, hs]
  · exact absurd (by rw [hs] ; rfl) h
  · constructor <;> simp [soma_and_soma_children_qc, hs]

theorem c8_amended_inconclusive_shape_witness :
    (somaRows (extract_node_relationships rowsTwoSomas)).length ≠ 1 ∧
    ((soma_and_soma_children_qc (extract_node_relationships rowsTwoSomas)
        false 50).get? 1 = some soma_children_furcation_base ∧
      (soma_and_soma_children_qc (extract_node_relationships rowsTwoSomas)
        false 50).get? 2 = some soma_children_distance_base) :=
  ⟨by decide,
    c8_amended_inconclusive_shape (extract_node_relationships rowsTwoSomas)
      false 50 (by decide)⟩

/-! ### Claim C10 -/

/-- C10: a dendrite node (compartment 3 or 4) whose parent identifier is
neither the root marker nor the identifier of any node in the set appears
in the offender lists of both the OrphanedNodes finding and the
DendriteOrigins finding. -/
theorem c10_orphan_dendrite_double_reported
    (rows : List NodeRec) (row : NodeRec)
    (hmem : row ∈ rows)
    (hcomp : row.compartment = 3 ∨ row.compartment = 4)
    (hpar : row.parent ≠ -1)
    (hnores : ∀ s ∈ rows, s.node_id ≠ row.parent) :
    (∃ l, (orphan_node_check (extract_node_relationships rows)).nodes_with_error
        = some l ∧ (row.node_id, row.x, row.y, row.z) ∈ l) ∧
    (∃ l, (dendrite_origins_qc (extract_node_relationships rows)).nodes_with_error
        = some l ∧ (row.node_id, row.x, row.y, row.z) ∈ l) := by
  have hpt : compartmentOf rows row.parent = none := by
    have : (rows.find? fun s => s.node_id == row.parent) = none := by
      rw [List.find?_eq_none]
      intro s hs
      simpa using hnores s hs
    simp [compartmentOf, this]
  have hmr : morphOf rows row ∈ extract_node_relationships rows :=
    List.mem_map_of_mem (morphOf rows) hmem
  have hoff : offenderOf (morphOf rows row)
      = (row.node_id, row.x, row.y, row.z) := rfl
  constructor
  · have hin : morphOf rows row ∈
        (extract_node_relationships rows).filter fun r =>
          r.parent_node_type.isNone && !(r.parent == -1) := by
      rw [List.mem_filter]
      refine ⟨hmr, ?_⟩
      simp [morphOf, hpt, hpar]
    refine ⟨((extract_node_relationships rows).filter fun r =>
        r.parent_node_type.isNone && !(r.parent == -1)).map offenderOf, ?_, ?_⟩
    · unfold orphan_node_check
      rw [if_neg]
      simp only [List.isEmpty_eq_true]
      exact List.ne_nil_of_mem hin
    · rw [← hoff]
      exact List.mem_map_of_mem offenderOf hin
  · have hin : (row.node_id, row.x, row.y, row.z) ∈
        dendriteInvalidFor (extract_node_relationships rows) row.compartment := by
      unfold dendriteInvalidFor
      rw [← hoff]
      refine List.mem_map_of_mem offenderOf ?_
      rw [List.mem_filter]
      refine ⟨?_, ?_⟩
      · rw [List.mem_filter]
        refine ⟨?_, ?_⟩
        · rw [List.mem_filter]
          exact ⟨hmr, by simp [morphOf]⟩
        · simp [morphOf, hpt]
      · simp [morphOf, hpt]
    have hin2 : (row.node_id, row.x, row.y, row.z) ∈
        dendriteInvalidFor (extract_node_relationships rows) 3 ++
          dendriteInvalidFor (extract_node_relationships rows) 4 := by
      rcases hcomp with h3 | h4
      · exact List.mem_append_left _ (h3 ▸ hin)
      · exact List.mem_append_right _ (h4 ▸ hin)
    refine ⟨dendriteInvalidFor (extract_node_relationships rows) 3 ++
        dendriteInvalidFor (extract_node_relationships rows) 4, ?_, hin2⟩
    unfold dendrite_origins_qc
    rw [if_neg]
    simp only [List.isEmpty_eq_true]
    exact List.ne_nil_of_mem hin2

theorem c10_orphan_dendrite_double_reported_witness :
    (∃ l, (orphan_node_check (extract_node_relationships rowsOrphanDendrite)).nodes_with_error
        = some l ∧ ((2 : Int), (1 : ℚ), (0 : ℚ), (0 : ℚ)) ∈ l) ∧
    (∃ l, (dendrite_origins_qc (extract_node_relationships rowsOrphanDendrite)).nodes_with_error
        = some l ∧ ((2 : Int), (1 : ℚ), (0 : ℚ), (0 : ℚ)) ∈ l) :=
  c10_orphan_dendrite_double_reported rowsOrphanDendrite
    { node_id := 2, compartment := 3, x := 1, y := 0, z := 0, r := 1, parent := 99 }
    (by decide) (by decide) (by decide) (by decide)

/-! ### Claim C1 -/

/-- C1: `Standardizer._append_if_error` looks up the key
`node_ids_with_error`, but every finding built in `tools.py` stores its
offenders under `nodes_with_error`; the lookup therefore always returns
None and no finding is ever retained (first conjunct).  In particular, on
the two-soma fixture `validate` produces an empty error list (second
conjunct) even though the NumberOfSomas finding carries two offenders
(third conjunct), contradicting the claim that every finding with a
non-empty offender list is retained. -/
theorem c1_append_key_mismatch :
    (∀ errors reports, append_if_error errors reports = errors) ∧
    validate_errors rowsTwoSomas 50 [1, 2] = Except.ok [] ∧
    (soma_and_soma_children_qc (extract_node_relationships rowsTwoSomas)
        (pyTruthy 50) 50).head? =
      some { number_of_somas_base with
               nodes_with_error := some [(1, 0, 0, 0), (2, 5, 0, 0)] } := by
  refine ⟨?_, ?_, by decide⟩
  · intro errors reports
    simp +decide [append_if_error, findingGetOffenders, appendKey]
  · rfl

/-! ### Claim C7 -/

/-- C7: the canonical numbering produced by the traversal depends on the
order in which the roots are iterated: the two iteration orders of the
Python set containing the roots 1 and 32 (CPython yields 32 before 1, since
32 occupies slot 0 of the 8-slot hash table) yield different mappings, so
the code does not realise the ascending-identifier root processing the
claim describes — it inherits whatever order the set iterates in. -/
theorem c7_root_order_dependence :
    isRootOrder rowsTwoRoots [1, 32] ∧ isRootOrder rowsTwoRoots [32, 1] ∧
    (check_cycles_and_topological_sort (buildChildDict rowsTwoRoots)
        [1, 32]).2 ≠
      (check_cycles_and_topological_sort (buildChildDict rowsTwoRoots)
        [32, 1]).2 :=
  ⟨by decide, by decide, by decide⟩

/-! ### Claim C2, counterexample -/

/-- C2 counterexample: on the acyclic, fully reachable fixture whose root
has the children 2 then 3 in input order, the canonical numbering assigns 3
the smaller number: the traversal visits children in reverse input order,
so the earlier-input child subtree is not ranked first (the claim says node
2 should get the smaller number). -/
theorem c2_counterexample_child_order :
    isRootOrder rowsTwoChildren [1] ∧
    childList rowsTwoChildren 1 = [2, 3] ∧
    alookup (check_cycles_and_topological_sort
        (buildChildDict rowsTwoChildren) [1]).2 3 = some 2 ∧
    alookup (check_cycles_and_topological_sort
        (buildChildDict rowsTwoChildren) [1]).2 2 = some 3 :=
  ⟨by decide, by decide, by decide, by decide⟩

/-! ### Claim C5, counterexample -/

/-- C5 counterexample: the two-node rootless parent cycle contains a
back-edge (node 1 is reachable from itself through its child 2), yet the
traversal, which only starts from root-marker nodes, never reaches it: the
CheckForLoops finding comes back with no offender at all (the claim
requires exactly one synthetic offender). -/
theorem c5_counterexample_rootless_cycle :
    isRootOrder rowsRootlessCycle [] ∧
    HasBackEdge (dictGet (buildChildDict rowsRootlessCycle)) 1 ∧
    check_cycles_and_topological_sort (buildChildDict rowsRootlessCycle) [] =
      (check_loops_clean, []) :=
  ⟨by decide, ⟨2, by decide, Reach.step (by decide) (Reach.refl 1)⟩, by decide⟩

/-! ### Rank and mapping lemmas -/

theorem rankOf_lt_of_mem {l : List Int} {x : Int} (h : x ∈ l) :
    rankOf l x < l.length := by
  induction l with
  | nil => cases h
  | cons a t ih =>
    by_cases hax : a = x
    · simp [rankOf, hax]
    · rcases List.mem_cons.mp h with h1 | h2
      · exact absurd h1.symm hax
      · simp only [rankOf, if_neg hax, List.length_cons]
        exact Nat.succ_lt_succ (ih h2)

theorem rankOf_append_of_mem {l1 : List Int} (l2 : List Int) {x : Int}
    (h : x ∈ l1) : rankOf (l1 ++ l2) x = rankOf l1 x := by
  induction l1 with
  | nil => cases h
  | cons a t ih =>
    by_cases hax : a = x
    · simp [rankOf, hax]
    · rcases List.mem_cons.mp h with h1 | h2
      · exact absurd h1.symm hax
      · simp [rankOf, if_neg hax, ih h2]

theorem rankOf_append_of_not_mem {l1 : List Int} (l2 : List Int) {x : Int}
    (h : x ∉ l1) : rankOf (l1 ++ l2) x = l1.length + rankOf l2 x := by
  induction l1 with
  | nil => simp [rankOf]
  | cons a t ih =>
    have hax : a ≠ x := fun e => h (e ▸ List.mem_cons_self a t)
    have hxt : x ∉ t := fun hx => h (List.mem_cons_of_mem a hx)
    show rankOf (a :: (t ++ l2)) x = (a :: t).length + rankOf l2 x
    rw [rankOf, if_neg hax, ih hxt, List.length_cons]
    omega

theorem alookup_mkMappingFrom {v : List Int} {x : Int} (h : x ∈ v) :
    ∀ k, alookup (mkMappingFrom k v) x = some (k + rankOf v x) := by
  induction v with
  | nil => cases h
  | cons a t ih =>
    intro k
    by_cases hax : a = x
    · subst hax
      simp [mkMappingFrom, alookup, List.find?, rankOf]
    · have hxt : x ∈ t := by
        rcases List.mem_cons.mp h with h1 | h2
        · exact absurd h1.symm hax
        · exact h2
      have hbeq : (a == x) = false := by simp [hax]
      simp only [mkMappingFrom, alookup, List.find?, hbeq]
      have hrec := ih hxt (k + 1)
      simp only [alookup] at hrec
      rw [hrec]
      rw [rankOf, if_neg hax]
      exact congrArg some (by omega)

/-- The canonical number of a visited node is its visitation rank plus
one. -/
theorem alookup_mkMapping {v : List Int} {x : Int} (h : x ∈ v) :
    alookup (mkMapping v) x = some (rankOf v x + 1) := by
  rw [mkMapping, alookup_mkMappingFrom h 1]
  exact congrArg some (by omega)

/-! ### Invariants of completed traversals -/

theorem dfsGo_done_prefix (child : Int → List Int) :
    ∀ (f : Nat) (roots stack visited v : List Int),
      dfsGo child f roots stack visited = DfsResult.done v →
      ∃ w, v = visited ++ w := by
  intro f
  induction f with
  | zero => intro roots stack visited v h; simp [dfsGo] at h
  | succ f ih =>
    intro roots stack visited v h
    cases stack with
    | nil =>
      cases roots with
      | nil =>
        simp only [dfsGo] at h
        cases h
        exact ⟨[], by simp⟩
      | cons r rs => exact ih rs [r] visited v h
    | cons c rest =>
      simp only [dfsGo] at h
      by_cases hc : c ∈ visited
      · simp [hc] at h
      · rw [if_neg hc] at h
        rcases ih _ _ _ _ h with ⟨w, hw⟩
        exact ⟨c :: w, by simp [hw]⟩

theorem dfsGo_done_stack_subset (child : Int → List Int) :
    ∀ (f : Nat) (roots stack visited v : List Int),
      dfsGo child f roots stack visited = DfsResult.done v →
      ∀ x ∈ stack, x ∈ v := by
  intro f
  induction f with
  | zero => intro roots stack visited v h; simp [dfsGo] at h
  | succ f ih =>
    intro roots stack visited v h x hx
    cases stack with
    | nil => cases hx
    | cons c rest =>
      simp only [dfsGo] at h
      by_cases hc : c ∈ visited
      · simp [hc] at h
      · rw [if_neg hc] at h
        rcases List.mem_cons.mp hx with h1 | h2
        · subst h1
          rcases dfsGo_done_prefix child _ _ _ _ _ h with ⟨w, hw⟩
          rw [hw]
          simp
        · exact ih _ _ _ _ h x (by simp [h2])

theorem dfsGo_done_roots_subset (child : Int → List Int) :
    ∀ (f : Nat) (roots stack visited v : List Int),
      dfsGo child f roots stack visited = DfsResult.done v →
      ∀ r ∈ roots, r ∈ v := by
  intro f
  induction f with
  | zero => intro roots stack visited v h; simp [dfsGo] at h
  | succ f ih =>
    intro roots stack visited v h r hr
    cases stack with
    | nil =>
      cases roots with
      | nil => cases hr
      | cons r0 rs =>
        have hstep : dfsGo child f rs [r0] visited = DfsResult.done v := h
        rcases List.mem_cons.mp hr with h1 | h2
        · subst h1
          exact dfsGo_done_stack_subset child _ _ _ _ _ hstep r (by simp)
        · exact ih _ _ _ _ hstep r h2
    | cons c rest =>
      simp only [dfsGo] at h
      by_cases hc : c ∈ visited
      · simp [hc] at h
      · rw [if_neg hc] at h
        exact ih _ _ _ _ h r hr

theorem dfsGo_done_stack_not_visited (child : Int → List Int) :
    ∀ (f : Nat) (roots stack visited v : List Int),
      dfsGo child f roots stack visited = DfsResult.done v →
      ∀ x ∈ stack, x ∉ visited := by
  intro f
  induction f with
  | zero => intro roots stack visited v h; simp [dfsGo] at h
  | succ f ih =>
    intro roots stack visited v h x hx
    cases stack with
    | nil => cases hx
    | cons c rest =>
      simp only [dfsGo] at h
      by_cases hc : c ∈ visited
      · simp [hc] at h
      · rw [if_neg hc] at h
        rcases List.mem_cons.mp hx with h1 | h2
        · subst h1; exact hc
        · intro hxv
          exact ih _ _ _ _ h x (by simp [h2]) (by simp [hxv])

theorem dfsGo_done_nodup (child : Int → List Int) :
    ∀ (f : Nat) (roots stack visited v : List Int),
      dfsGo child f roots stack visited = DfsResult.done v →
      visited.Nodup → v.Nodup := by
  intro f
  induction f with
  | zero => intro roots stack visited v h; simp [dfsGo] at h
  | succ f ih =>
    intro roots stack visited v h hnd
    cases stack with
    | nil =>
      cases roots with
      | nil =>
        simp only [dfsGo] at h
        cases h
        exact hnd
      | cons r rs => exact ih rs [r] visited v h hnd
    | cons c rest =>
      simp only [dfsGo] at h
      by_cases hc : c ∈ visited
      · simp [hc] at h
      · rw [if_neg hc] at h
        refine ih _ _ _ _ h ?_
        simpa using List.Nodup.append hnd (List.nodup_singleton c)
          (by simpa using hc)

/-- In a completed traversal every child of a newly visited node is itself
visited, strictly later than its parent. -/
theorem dfsGo_done_child_rank (child : Int → List Int) :
    ∀ (f : Nat) (roots stack visited v : List Int),
      dfsGo child f roots stack visited = DfsResult.done v →
      visited.Nodup →
      ∀ n ∈ v, n ∉ visited →
        ∀ c ∈ child n, c ∈ v ∧ rankOf v n < rankOf v c := by
  intro f
  induction f with
  | zero => intro roots stack visited v h; simp [dfsGo] at h
  | succ f ih =>
    intro roots stack visited v h hnd n hnv hnvis c hc
    cases stack with
    | nil =>
      cases roots with
      | nil =>
        simp only [dfsGo] at h
        cases h
        exact absurd hnv hnvis
      | cons r0 rs =>
        have hstep : dfsGo child f rs [r0] visited = DfsResult.done v := h
        exact ih _ _ _ _ hstep hnd n hnv hnvis c hc
    | cons c0 rest =>
      simp only [dfsGo] at h
      by_cases hc0 : c0 ∈ visited
      · simp [hc0] at h
      · rw [if_neg hc0] at h
        have hnd' : (visited ++ [c0]).Nodup := by
          simpa using List.Nodup.append hnd (List.nodup_singleton c0)
            (by simpa using hc0)
        by_cases hn0 : n = c0
        · subst hn0
          rcases dfsGo_done_prefix child _ _ _ _ _ h with ⟨w, hw⟩
          have hcstack : c ∈ (child n).reverse ++ rest :=
            List.mem_append_left _ (List.mem_reverse.mpr hc)
          have hcv : c ∈ v := dfsGo_done_stack_subset child _ _ _ _ _ h c hcstack
          have hcnvis : c ∉ visited ++ [n] :=
            dfsGo_done_stack_not_visited child _ _ _ _ _ h c hcstack
          refine ⟨hcv, ?_⟩
          have hv2 : v = visited ++ ([n] ++ w) := by
            rw [hw, List.append_assoc]
          have hrn : rankOf v n = visited.length := by
            rw [hv2, rankOf_append_of_not_mem _ hnvis]
            simp [rankOf]
          have hrc : rankOf v c =
              (visited ++ [n]).length + rankOf w c := by
            rw [hw, rankOf_append_of_not_mem _ hcnvis]
          rw [hrn, hrc, List.length_append, List.length_singleton]
          omega
        · have hnvis' : n ∉ visited ++ [c0] := by
            simp only [List.mem_append, List.mem_singleton]
            rintro (h1 | h2)
            · exact hnvis h1
            · exact hn0 h2
          exact ih _ _ _ _ h hnd' n hnv hnvis' c hc

/-- Everything reachable from a processed root is visited in a completed
traversal. -/
theorem dfsGo_done_reach_mem (child : Int → List Int) {f : Nat}
    {ro v : List Int} (h : dfsGo child f ro [] [] = DfsResult.done v) :
    ∀ a b, Reach child a b → a ∈ v → b ∈ v := by
  intro a b hab
  induction hab with
  | refl n => exact id
  | step hpc _ ih =>
    intro hp
    exact ih ((dfsGo_done_child_rank child _ _ _ _ _ h List.nodup_nil _ hp
      (List.not_mem_nil _) _ hpc).1)

/-- Visitation rank is monotone along reachability in a completed
traversal. -/
theorem dfsGo_done_rank_mono (child : Int → List Int) {f : Nat}
    {ro v : List Int} (h : dfsGo child f ro [] [] = DfsResult.done v) :
    ∀ a b, Reach child a b → a ∈ v → rankOf v a ≤ rankOf v b := by
  intro a b hab
  induction hab with
  | refl n => exact fun _ => Nat.le_refl _
  | step hpc hcx ih =>
    intro hp
    have hstep := dfsGo_done_child_rank child _ _ _ _ _ h List.nodup_nil _ hp
      (List.not_mem_nil _) _ hpc
    exact Nat.le_trans (Nat.le_of_lt hstep.2) (ih hstep.1)

/-- A traversal that can reach a back-edge from one of its roots never
completes: the cycle forces a strictly increasing rank around a loop. -/
theorem dfsGo_not_done_of_backedge (child : Int → List Int) {f : Nat}
    {ro : List Int}
    (h : ∃ r ∈ ro, ∃ x, Reach child r x ∧ HasBackEdge child x) :
    ∀ v, dfsGo child f ro [] [] ≠ DfsResult.done v := by
  rcases h with ⟨r, hr, x, hrx, c, hc, hcx⟩
  intro v hdone
  have hrv : r ∈ v := dfsGo_done_roots_subset child _ _ _ _ _ hdone r hr
  have hxv : x ∈ v := dfsGo_done_reach_mem child hdone r x hrx hrv
  have hstep := dfsGo_done_child_rank child _ _ _ _ _ hdone List.nodup_nil _
    hxv (List.not_mem_nil _) _ hc
  have hle : rankOf v c ≤ rankOf v x :=
    dfsGo_done_rank_mono child hdone c x hcx hstep.1
  omega

/-- Removing a fresh universe element from the unvisited count. -/
theorem filter_not_mem_snoc_length {U visited : List Int} {c : Int}
    (hU : U.Nodup) (hcU : c ∈ U) (hcv : c ∉ visited) :
    (U.filter fun i => decide (i ∉ visited ++ [c])).length + 1 =
      (U.filter fun i => decide (i ∉ visited)).length := by
  induction U with
  | nil => cases hcU
  | cons a t ih =>
    have hnd := List.nodup_cons.mp hU
    by_cases hac : a = c
    · subst hac
      have h1 : (decide (a ∉ visited ++ [a])) = false := by simp
      have h2 : (decide (a ∉ visited)) = true := by simpa using hcv
      rw [List.filter_cons, List.filter_cons, h1, h2]
      have heq : (t.filter fun i => decide (i ∉ visited ++ [a])) =
          (t.filter fun i => decide (i ∉ visited)) := by
        apply List.filter_congr
        intro i hi
        have hia : i ≠ a := fun e => hnd.1 (e ▸ hi)
        simp [hia]
      rw [heq]
      simp
    · rcases List.mem_cons.mp hcU with h1 | h2
      · exact absurd h1.symm hac
      · have heqa : (decide (a ∉ visited ++ [c])) = (decide (a ∉ visited)) := by
          simp [hac]
        rw [List.filter_cons, List.filter_cons, heqa]
        cases hav : (decide (a ∉ visited)) with
        | true => simpa [hav] using congrArg Nat.succ (ih hnd.2 h2)
        | false => exact ih hnd.2 h2

/-- With every pushable identifier inside a duplicate-free universe `U`, the
fuel `roots + unvisited + 2` never runs out: each step either transitions a
root, terminates, or freshly visits a universe element. -/
theorem dfsGo_ne_fuelOut (child : Int → List Int) (U : List Int)
    (hchild : ∀ n, ∀ c ∈ child n, c ∈ U) (hU : U.Nodup) :
    ∀ (f : Nat) (roots stack visited : List Int),
      (∀ x ∈ stack, x ∈ U) → (∀ r ∈ roots, r ∈ U) →
      roots.length + (U.filter fun i => decide (i ∉ visited)).length + 2 ≤ f →
      dfsGo child f roots stack visited ≠ DfsResult.fuelOut := by
  intro f
  induction f with
  | zero => intro roots stack visited _ _ hle; omega
  | succ f ih =>
    intro roots stack visited hstackU hrootsU hle
    cases stack with
    | nil =>
      cases roots with
      | nil => simp [dfsGo]
      | cons r0 rs =>
        show dfsGo child f rs [r0] visited ≠ DfsResult.fuelOut
        refine ih rs [r0] visited ?_ ?_ ?_
        · intro x hx
          rw [List.mem_singleton] at hx
          exact hx ▸ hrootsU r0 (List.mem_cons_self _ _)
        · exact fun r hr => hrootsU r (List.mem_cons_of_mem _ hr)
        · simp only [List.length_cons] at hle
          omega
    | cons c rest =>
      simp only [dfsGo]
      by_cases hc : c ∈ visited
      · simp [hc]
      · rw [if_neg hc]
        refine ih roots _ (visited ++ [c]) ?_ ?_ ?_
        · intro x hx
          rcases List.mem_append.mp hx with h1 | h2
          · exact hchild c x (List.mem_reverse.mp h1)
          · exact hstackU x (List.mem_cons_of_mem _ h2)
        · exact hrootsU
        · have hcount := filter_not_mem_snoc_length hU
            (hstackU c (List.mem_cons_self _ _)) hc
          omega

/-- The fuel chosen by the embedded `check_cycles_and_topological_sort`
suffices for every input. -/
theorem check_fuel_ok (d : List (Int × List Int)) (ro : List Int) :
    dfsGo (dictGet d) (dfsFuel d ro) ro [] [] ≠ DfsResult.fuelOut := by
  refine dfsGo_ne_fuelOut (dictGet d) (dfsUniverse d ro) ?_
    (List.nodup_dedup _) _ ro [] [] (by simp) ?_ ?_
  · intro n c hcmem
    unfold dictGet at hcmem
    rcases hfind : d.find? fun p => p.1 == n with _ | p
    · rw [hfind] at hcmem; cases hcmem
    · rw [hfind] at hcmem
      have hpmem : p ∈ d := List.mem_of_find?_eq_some hfind
      have : c ∈ dictVals d := by
        unfold dictVals
        rw [List.mem_flatten]
        exact ⟨p.2, List.mem_map_of_mem _ hpmem, hcmem⟩
      unfold dfsUniverse
      rw [List.mem_dedup]
      exact List.mem_append_right _ this
  · intro r hr
    unfold dfsUniverse
    rw [List.mem_dedup]
    exact List.mem_append_left _ hr
  · unfold dfsFuel
    have : (dfsUniverse d ro).filter (fun i => decide (i ∉ ([] : List Int)))
        = dfsUniverse d ro := by
      apply List.filter_eq_self.mpr
      intro a _
      simp
    rw [this]

/-! ### Claim C5, amended -/

/-- C5 amended: whenever some node with a back-edge (reachable from itself
through child steps) is reachable from one of the iterated roots, the
routine returns the CheckForLoops finding with exactly the single synthetic
offender `(1, 0, 0, 0)` and an empty canonical mapping — never a partial
mapping. -/
theorem c5_amended_reachable_backedge_cycle (d : List (Int × List Int))
    (ro : List Int)
    (h : ∃ r ∈ ro, ∃ x, Reach (dictGet d) r x ∧ HasBackEdge (dictGet d) x) :
    check_cycles_and_topological_sort d ro = (check_loops_cycle, []) := by
  unfold check_cycles_and_topological_sort
  rcases hres : dfsGo (dictGet d) (dfsFuel d ro) ro [] [] with _ | _ | v
  · exact absurd hres (check_fuel_ok d ro)
  · rfl
  · exact absurd hres (dfsGo_not_done_of_backedge (dictGet d) h v)

theorem c5_amended_reachable_backedge_cycle_witness :
    check_cycles_and_topological_sort (buildChildDict rowsReachableCycle) [1] =
      (check_loops_cycle, []) :=
  c5_amended_reachable_backedge_cycle _ _
    ⟨1, by decide, 2,
      @Reach.step (dictGet (buildChildDict rowsReachableCycle)) 1 2 2
        (by decide) (Reach.refl 2),
      ⟨3, by decide,
        @Reach.step (dictGet (buildChildDict rowsReachableCycle)) 3 4 2
          (by decide)
          (@Reach.step (dictGet (buildChildDict rowsReachableCycle)) 4 5 2
            (by decide)
            (@Reach.step (dictGet (buildChildDict rowsReachableCycle)) 5 2 2
              (by decide) (Reach.refl 2)))⟩⟩

/-! ### The reference preorder: stability and unfolding -/

theorem length_filter_le_of_imp {U : List Int} {p q : Int → Bool}
    (h : ∀ x ∈ U, p x = true → q x = true) :
    (U.filter p).length ≤ (U.filter q).length := by
  induction U with
  | nil => simp
  | cons a t ih =>
    have ht := ih fun x hx => h x (List.mem_cons_of_mem a hx)
    cases hpa : p a with
    | true =>
      have hqa := h a (List.mem_cons_self _ _) hpa
      simp [List.filter_cons, hpa, hqa]
      exact ht
    | false =>
      cases hqa : q a with
      | true =>
        simp [List.filter_cons, hpa, hqa]
        omega
      | false =>
        simp [List.filter_cons, hpa, hqa]
        exact ht

theorem length_filter_lt_of_imp {U : List Int} {p q : Int → Bool} {c : Int}
    (h : ∀ x ∈ U, p x = true → q x = true) (hc : c ∈ U)
    (hpc : p c = false) (hqc : q c = true) :
    (U.filter p).length < (U.filter q).length := by
  induction U with
  | nil => cases hc
  | cons a t ih =>
    have hle := length_filter_le_of_imp
      fun x hx => h x (List.mem_cons_of_mem a hx)
    by_cases hac : a = c
    · subst hac
      simp [List.filter_cons, hpc, hqc]
      omega
    · have ht : c ∈ t := by
        rcases List.mem_cons.mp hc with h1 | h2
        · exact absurd h1.symm hac
        · exact h2
      have hlt := ih (fun x hx => h x (List.mem_cons_of_mem a hx)) ht
      cases hpa : p a with
      | true =>
        have hqa := h a (List.mem_cons_self _ _) hpa
        simp [List.filter_cons, hpa, hqa]
        omega
      | false =>
        cases hqa : q a with
        | true =>
          simp [List.filter_cons, hpa, hqa]
          omega
        | false =>
          simp [List.filter_cons, hpa, hqa]
          exact hlt

/-- The measure decreases from parent to child inside the universe. -/
theorem hmeas_lt_of_depth {U : List Int} {d : Int → Nat} {p c : Int}
    (hcU : c ∈ U) (hpc : d p < d c) : hmeas U d c < hmeas U d p := by
  unfold hmeas
  refine length_filter_lt_of_imp ?_ hcU ?_ ?_
  · intro x _ hx
    rw [decide_eq_true_eq] at hx
    exact decide_eq_true (Nat.lt_trans hpc hx)
  · simp
  · exact decide_eq_true hpc

theorem hmeas_le_length (U : List Int) (d : Int → Nat) (n : Int) :
    hmeas U d n ≤ U.length :=
  List.length_filter_le _ _

/-- Once the fuel exceeds the measure, the fuel-indexed preorder is
stable. -/
theorem preTrav_stable (child : Int → List Int) (U : List Int) (d : Int → Nat)
    (hchild : ∀ p c, c ∈ child p → c ∈ U ∧ d p < d c) :
    ∀ (f1 f2 : Nat) (n : Int), hmeas U d n < f1 → hmeas U d n < f2 →
      preTrav child f1 n = preTrav child f2 n := by
  intro f1
  induction f1 with
  | zero => intro f2 n h1; omega
  | succ f1 ih =>
    intro f2 n h1 h2
    cases f2 with
    | zero => omega
    | succ f2 =>
      simp only [preTrav]
      refine congrArg (n :: ·) (List.flatMap_congr ?_)
      intro c hcmem
      have hc := hchild n c (List.mem_reverse.mp hcmem)
      have hlt : hmeas U d c < hmeas U d n := hmeas_lt_of_depth hc.1 hc.2
      exact ih f2 c (by omega) (by omega)

/-- The canonical-fuel preorder satisfies the reversed-children preorder
recursion. -/
theorem preOrd_unfold (child : Int → List Int) (U : List Int) (d : Int → Nat)
    (hchild : ∀ p c, c ∈ child p → c ∈ U ∧ d p < d c) (n : Int) :
    preOrd child U n = n :: (child n).reverse.flatMap (preOrd child U) := by
  unfold preOrd
  rw [show preTrav child (U.length + 1) n =
    n :: (child n).reverse.flatMap (preTrav child U.length) from rfl]
  refine congrArg (n :: ·) (List.flatMap_congr ?_)
  intro c hcmem
  have hc := hchild n c (List.mem_reverse.mp hcmem)
  have hn : hmeas U d n ≤ U.length := hmeas_le_length U d n
  have hlt : hmeas U d c < hmeas U d n := hmeas_lt_of_depth hc.1 hc.2
  exact preTrav_stable child U d hchild U.length (U.length + 1) c (by omega)
    (by omega)

/-- Everything in a preorder is reachable from its start node. -/
theorem reach_of_mem_preTrav (child : Int → List Int) :
    ∀ (f : Nat) (n x : Int), x ∈ preTrav child f n → Reach child n x := by
  intro f
  induction f with
  | zero => intro n x h; cases h
  | succ f ih =>
    intro n x h
    rcases List.mem_cons.mp h with h1 | h2
    · subst h1
      exact Reach.refl _
    · rcases List.mem_flatMap.mp h2 with ⟨c, hcmem, hx⟩
      exact Reach.step (List.mem_reverse.mp hcmem) (ih c x hx)

/-- Everything in a preorder is the start node or some child-list value. -/
theorem mem_preTrav_src (child : Int → List Int) :
    ∀ (f : Nat) (n x : Int), x ∈ preTrav child f n →
      x = n ∨ ∃ p, x ∈ child p := by
  intro f
  induction f with
  | zero => intro n x h; cases h
  | succ f ih =>
    intro n x h
    rcases List.mem_cons.mp h with h1 | h2
    · exact Or.inl h1
    · rcases List.mem_flatMap.mp h2 with ⟨c, hcmem, hx⟩
      rcases ih c x hx with h3 | h3
      · exact Or.inr ⟨n, h3 ▸ List.mem_reverse.mp hcmem⟩
      · exact Or.inr h3

/-! ### The child dictionary built by the Standardizer -/

theorem dictGet_dictUpsert (d : List (Int × List Int)) (k : Int) (v : Int) :
    ∀ p, dictGet (dictUpsert d k v) p =
      if p = k then dictGet d p ++ [v] else dictGet d p := by
  induction d with
  | nil =>
    intro p
    by_cases hpk : p = k
    · subst hpk; simp [dictUpsert, dictGet, List.find?]
    · have : (k == p) = false := by simpa using fun e => hpk e.symm
      simp [dictUpsert, dictGet, List.find?, this, hpk]
  | cons e rest ih =>
    intro p
    rcases e with ⟨k1, vs⟩
    by_cases hk1 : k1 = k
    · subst hk1
      by_cases hpk : p = k1
      · subst hpk
        simp [dictUpsert, dictGet, List.find?]
      · have hbeq : (k1 == p) = false := by
          simp only [beq_eq_false_iff_ne, ne_eq]
          exact fun e => hpk e.symm
        simp [dictUpsert, dictGet, List.find?, hbeq, hpk]
    · by_cases hpk1 : p = k1
      · have hpk : ¬ p = k := by
          rw [hpk1]
          exact hk1
        subst hpk1
        simp [dictUpsert, if_neg hk1, dictGet, List.find?, hpk]
      · have hbeq : (k1 == p) = false := by
          simp only [beq_eq_false_iff_ne, ne_eq]
          exact fun e => hpk1 e.symm
        simp only [dictUpsert, if_neg hk1, dictGet, List.find?, hbeq]
        have hrec := ih p
        simp only [dictGet] at hrec
        exact hrec

theorem dictGet_build_aux (rows : List NodeRec) :
    ∀ (d0 : List (Int × List Int)) (pid : Int),
      dictGet (rows.foldl
        (fun d row =>
          if row.parent ≠ -1 then dictUpsert d row.parent row.node_id else d)
        d0) pid = dictGet d0 pid ++ childList rows pid := by
  induction rows with
  | nil => intro d0 pid; simp [childList]
  | cons row rest ih =>
    intro d0 pid
    rw [List.foldl_cons]
    rw [ih]
    by_cases hp : row.parent = -1
    · rw [if_neg (by simp [hp])]
      have hcond : (row.parent == pid && !(row.parent == -1)) = false := by
        simp [hp]
      have hcl : childList (row :: rest) pid = childList rest pid := by
        simp [childList, List.filter_cons, hcond]
      rw [hcl]
    · rw [if_pos hp, dictGet_dictUpsert]
      by_cases hpid : pid = row.parent
      · subst hpid
        rw [if_pos rfl]
        have hcond : (row.parent == row.parent && !(row.parent == -1)) = true := by
          simp [hp]
        have hcl : childList (row :: rest) row.parent =
            row.node_id :: childList rest row.parent := by
          simp [childList, List.filter_cons, hcond, hp]
        rw [hcl]
        simp
      · rw [if_neg hpid]
        have hcond : (row.parent == pid && !(row.parent == -1)) = false := by
          simp only [Bool.and_eq_false_iff, beq_eq_false_iff_ne, ne_eq]
          left
          exact fun e => hpid e.symm
        have hcl : childList (row :: rest) pid = childList rest pid := by
          simp [childList, List.filter_cons, hcond]
        rw [hcl]

/-- The association dictionary built by `extract_node_relationships` looks
up to exactly the ordered child list. -/
theorem dictGet_buildChildDict (rows : List NodeRec) (pid : Int) :
    dictGet (buildChildDict rows) pid = childList rows pid := by
  unfold buildChildDict
  rw [dictGet_build_aux rows [] pid]
  rfl

/-! ### Forest structure: unique parents make subtrees disjoint -/

theorem reach_depth_le {child : Int → List Int} {d : Int → Nat}
    (hd : ∀ p c, c ∈ child p → d p < d c) :
    ∀ {a b : Int}, Reach child a b → a = b ∨ d a < d b := by
  intro a b h
  induction h with
  | refl n => exact Or.inl rfl
  | step hpc _ ih =>
    rcases ih with h1 | h2
    · exact Or.inr (h1 ▸ hd _ _ hpc)
    · exact Or.inr (Nat.lt_trans (hd _ _ hpc) h2)

theorem reach_last_edge {child : Int → List Int} :
    ∀ {a x : Int}, Reach child a x → a ≠ x →
      ∃ p, x ∈ child p ∧ Reach child a p := by
  intro a x h
  induction h with
  | refl n => intro hne; exact absurd rfl hne
  | step hpc hcx ih =>
    rename_i p c x
    intro _
    by_cases hc : c = x
    · subst hc
      exact ⟨p, hpc, Reach.refl p⟩
    · rcases ih hc with ⟨q, hq1, hq2⟩
      exact ⟨q, hq1, Reach.step hpc hq2⟩

/-- With unique parents, any two nodes reaching a common node are
comparable. -/
theorem reach_comparable {child : Int → List Int}
    (huniq : ∀ p q c, c ∈ child p → c ∈ child q → p = q) :
    ∀ {a x : Int}, Reach child a x → ∀ {b : Int}, Reach child b x →
      Reach child a b ∨ Reach child b a := by
  intro a x h
  induction h with
  | refl n => intro b hb; exact Or.inr hb
  | step hpc hcx ih =>
    rename_i p c x
    intro b hb
    rcases ih hb with h1 | h2
    · exact Or.inl (Reach.step hpc h1)
    · by_cases hbc : b = c
      · subst hbc
        exact Or.inl (Reach.step hpc (Reach.refl b))
      · rcases reach_last_edge h2 hbc with ⟨q, hq1, hq2⟩
        have hq := huniq q p c hq1 hpc
        subst hq
        exact Or.inr hq2

/-- A node never reaches a different child of its own parent. -/
theorem sibling_not_reach {child : Int → List Int} {d : Int → Nat}
    (hd : ∀ p c, c ∈ child p → d p < d c)
    (huniq : ∀ p q c, c ∈ child p → c ∈ child q → p = q)
    {n c1 c2 : Int} (hc1 : c1 ∈ child n) (hc2 : c2 ∈ child n)
    (hne : c1 ≠ c2) : ¬ Reach child c1 c2 := by
  intro h
  rcases reach_last_edge h hne with ⟨q, hq1, hq2⟩
  have hq := huniq q n c2 hq1 hc2
  subst hq
  have h5 := hd q c1 hc1
  rcases reach_depth_le hd hq2 with h3 | h4
  · subst h3; omega
  · omega

/-- A root (never a child) is not reachable from a different node. -/
theorem root_not_reached {child : Int → List Int}
    {r b : Int} (hroot : ∀ p, r ∉ child p) (h : Reach child b r)
    (hne : b ≠ r) : False := by
  rcases reach_last_edge h hne with ⟨q, hq1, _⟩
  exact hroot q hq1

/-- Nodup of the fuel-indexed preorder, given duplicate-free child lists,
unique parents and a depth certificate. -/
theorem preTrav_nodup {child : Int → List Int} {U : List Int} {d : Int → Nat}
    (hchild : ∀ p c, c ∈ child p → c ∈ U ∧ d p < d c)
    (hcn : ∀ p, (child p).Nodup)
    (huniq : ∀ p q c, c ∈ child p → c ∈ child q → p = q) :
    ∀ (f : Nat) (n : Int), (preTrav child f n).Nodup := by
  have hd : ∀ p c, c ∈ child p → d p < d c := fun p c h => (hchild p c h).2
  intro f
  induction f with
  | zero => intro n; simp [preTrav]
  | succ f ih =>
    intro n
    show (n :: (child n).reverse.flatMap (preTrav child f)).Nodup
    rw [List.nodup_cons]
    constructor
    · intro hmem
      rcases List.mem_flatMap.mp hmem with ⟨c, hcmem, hn⟩
      have hreach := reach_of_mem_preTrav child f c n hn
      have hc := hd n c (List.mem_reverse.mp hcmem)
      rcases reach_depth_le hd hreach with h1 | h2
      · subst h1; omega
      · omega
    · rw [List.nodup_flatMap]
      refine ⟨fun c _ => ih c, ?_⟩
      have hnd : (child n).reverse.Nodup := List.nodup_reverse.mpr (hcn n)
      refine List.Pairwise.imp_of_mem ?_ hnd
      intro c1 c2 hc1 hc2 hne x hx1 hx2
      have hr1 := reach_of_mem_preTrav child f c1 x hx1
      have hr2 := reach_of_mem_preTrav child f c2 x hx2
      have hc1n := List.mem_reverse.mp hc1
      have hc2n := List.mem_reverse.mp hc2
      rcases reach_comparable huniq hr1 hr2 with h1 | h2
      · exact sibling_not_reach hd huniq hc1n hc2n hne h1
      · exact sibling_not_reach hd huniq hc2n hc1n (Ne.symm hne) h2

/-- Nodup of the concatenated per-root preorders. -/
theorem dfs_flat_nodup {child : Int → List Int} {U : List Int} {d : Int → Nat}
    {ro : List Int}
    (hchild : ∀ p c, c ∈ child p → c ∈ U ∧ d p < d c)
    (hcn : ∀ p, (child p).Nodup)
    (huniq : ∀ p q c, c ∈ child p → c ∈ child q → p = q)
    (hro : ro.Nodup) (hroots : ∀ r ∈ ro, ∀ p, r ∉ child p) :
    (ro.flatMap (preOrd child U)).Nodup := by
  have hd : ∀ p c, c ∈ child p → d p < d c := fun p c h => (hchild p c h).2
  rw [List.nodup_flatMap]
  refine ⟨fun r _ => preTrav_nodup hchild hcn huniq _ r, ?_⟩
  refine List.Pairwise.imp_of_mem ?_ hro
  intro r1 r2 hr1 hr2 hne x hx1 hx2
  have hq1 := reach_of_mem_preTrav child _ r1 x hx1
  have hq2 := reach_of_mem_preTrav child _ r2 x hx2
  rcases reach_comparable huniq hq1 hq2 with h | h
  · exact root_not_reached (hroots r2 hr2) h hne
  · exact root_not_reached (hroots r1 hr1) h (Ne.symm hne)

/-! ### The stack loop computes the concatenated reversed-child preorders -/

/-- Main loop invariant: with the pending work
`stack.flatMap preOrd ++ roots.flatMap preOrd` duplicate-free and disjoint
from what was already visited, the loop completes and appends exactly that
pending work, in order. -/
theorem dfsGo_eq_flat {child : Int → List Int} {U : List Int} {d : Int → Nat}
    (hchild : ∀ p c, c ∈ child p → c ∈ U ∧ d p < d c) :
    ∀ (f : Nat) (roots stack visited : List Int),
      (∀ x ∈ visited,
        x ∉ stack.flatMap (preOrd child U) ++ roots.flatMap (preOrd child U)) →
      (stack.flatMap (preOrd child U) ++
        roots.flatMap (preOrd child U)).Nodup →
      (stack.flatMap (preOrd child U) ++
          roots.flatMap (preOrd child U)).length + roots.length + 1 ≤ f →
      dfsGo child f roots stack visited =
        DfsResult.done (visited ++ (stack.flatMap (preOrd child U) ++
          roots.flatMap (preOrd child U))) := by
  intro f
  induction f with
  | zero => intro roots stack visited _ _ hle; simp at hle
  | succ f ih =>
    intro roots stack visited hdisj hnd hle
    cases stack with
    | nil =>
      cases roots with
      | nil => simp [dfsGo]
      | cons r rs =>
        have happ : ([r].flatMap (preOrd child U) ++
            rs.flatMap (preOrd child U)) =
            (([] : List Int).flatMap (preOrd child U) ++
              (r :: rs).flatMap (preOrd child U)) := by
          simp [List.flatMap_cons]
        show dfsGo child f rs [r] visited = _
        rw [← happ] at hdisj hnd ⊢
        refine ih rs [r] visited hdisj hnd ?_
        rw [happ]
        simp only [List.length_cons] at hle
        omega
    | cons c rest =>
      have hunfold : preOrd child U c =
          c :: (child c).reverse.flatMap (preOrd child U) :=
        preOrd_unfold child U d hchild c
      have hW : ((c :: rest).flatMap (preOrd child U) ++
          roots.flatMap (preOrd child U)) =
          c :: (((child c).reverse ++ rest).flatMap (preOrd child U) ++
            roots.flatMap (preOrd child U)) := by
        rw [List.flatMap_cons, hunfold, List.flatMap_append]
        simp [List.append_assoc]
      rw [hW] at hdisj hnd hle ⊢
      have hcW : c ∈ (c :: rest).flatMap (preOrd child U) ++
          roots.flatMap (preOrd child U) := by
        rw [hW]; exact List.mem_cons_self _ _
      have hcvis : c ∉ visited := by
        intro hc
        exact hdisj c hc (List.mem_cons_self _ _)
      show (if c ∈ visited then DfsResult.cycle
        else dfsGo child f roots ((child c).reverse ++ rest)
          (visited ++ [c])) = _
      rw [if_neg hcvis]
      have hnd' := List.nodup_cons.mp hnd
      have hstep := ih roots ((child c).reverse ++ rest) (visited ++ [c])
        ?_ hnd'.2 ?_
      · rw [hstep]
        congr 1
        simp
      · intro x hx
        rcases List.mem_append.mp hx with h1 | h2
        · intro hmem
          exact hdisj x h1 (List.mem_cons_of_mem c hmem)
        · rw [List.mem_singleton] at h2
          subst h2
          exact hnd'.1
      · simp only [List.length_cons] at hle
        omega

/-! ### Forest facts derived from unique node identifiers -/

theorem mem_childList {rows : List NodeRec} {p c : Int} :
    c ∈ childList rows p ↔
      ∃ row ∈ rows, row.parent = p ∧ ¬ row.parent = -1 ∧ row.node_id = c := by
  unfold childList
  rw [List.mem_map]
  constructor
  · rintro ⟨row, hmem, hid⟩
    rw [List.mem_filter] at hmem
    have hcond := hmem.2
    simp only [Bool.and_eq_true, beq_iff_eq, Bool.not_eq_true',
      beq_eq_false_iff_ne, ne_eq] at hcond
    exact ⟨row, hmem.1, hcond.1, hcond.2, hid⟩
  · rintro ⟨row, hmem, hpar, hne, hid⟩
    refine ⟨row, ?_, hid⟩
    rw [List.mem_filter]
    refine ⟨hmem, ?_⟩
    simp only [Bool.and_eq_true, beq_iff_eq, Bool.not_eq_true',
      beq_eq_false_iff_ne, ne_eq]
    exact ⟨hpar, hne⟩

theorem mem_rootIds {rows : List NodeRec} {r : Int} :
    r ∈ rootIds rows ↔
      ∃ row ∈ rows, row.parent = -1 ∧ row.node_id = r := by
  unfold rootIds
  rw [List.mem_map]
  constructor
  · rintro ⟨row, hmem, hid⟩
    rw [List.mem_filter] at hmem
    have hcond := hmem.2
    rw [beq_iff_eq] at hcond
    exact ⟨row, hmem.1, hcond, hid⟩
  · rintro ⟨row, hmem, hpar, hid⟩
    refine ⟨row, ?_, hid⟩
    rw [List.mem_filter]
    exact ⟨hmem, beq_iff_eq.mpr hpar⟩

theorem childList_nodup {rows : List NodeRec}
    (hU : (rows.map fun row => row.node_id).Nodup) (p : Int) :
    (childList rows p).Nodup := by
  unfold childList
  exact List.Nodup.sublist (List.Sublist.map _ (List.filter_sublist _)) hU

theorem childList_unique_parent {rows : List NodeRec}
    (hU : (rows.map fun row => row.node_id).Nodup) :
    ∀ p q c, c ∈ childList rows p → c ∈ childList rows q → p = q := by
  intro p q c hp hq
  rcases mem_childList.mp hp with ⟨r1, hm1, hp1, _, hi1⟩
  rcases mem_childList.mp hq with ⟨r2, hm2, hp2, _, hi2⟩
  have := List.inj_on_of_nodup_map hU hm1 hm2 (by rw [hi1, hi2])
  rw [← hp1, ← hp2, this]

theorem root_not_in_childList {rows : List NodeRec}
    (hU : (rows.map fun row => row.node_id).Nodup) {r : Int}
    (hr : r ∈ rootIds rows) : ∀ p, r ∉ childList rows p := by
  intro p hmem
  rcases mem_rootIds.mp hr with ⟨r1, hm1, hp1, hi1⟩
  rcases mem_childList.mp hmem with ⟨r2, hm2, _, hne2, hi2⟩
  have := List.inj_on_of_nodup_map hU hm1 hm2 (by rw [hi1, hi2])
  rw [this] at hp1
  exact hne2 hp1

theorem childList_subset_universe (rows : List NodeRec) (ro : List Int) :
    ∀ p c, c ∈ childList rows p →
      c ∈ dfsUniverse (buildChildDict rows) ro := by
  intro p c hmem
  rw [← dictGet_buildChildDict rows p] at hmem
  unfold dictGet at hmem
  rcases hfind : (buildChildDict rows).find? fun q => q.1 == p with _ | q
  · rw [hfind] at hmem; cases hmem
  · rw [hfind] at hmem
    have hqmem := List.mem_of_find?_eq_some hfind
    unfold dfsUniverse
    rw [List.mem_dedup]
    refine List.mem_append_right _ ?_
    unfold dictVals
    rw [List.mem_flatten]
    exact ⟨q.2, List.mem_map_of_mem _ hqmem, hmem⟩

/-- The traversal of `check_cycles_and_topological_sort` over the dictionary
built from a duplicate-free, acyclic record set completes and numbers the
nodes by the concatenated reversed-children preorders of the iterated
roots. -/
theorem check_cycles_eq_preorder (rows : List NodeRec) (ro : List Int)
    (dep : Int → Nat)
    (hU : (rows.map fun row => row.node_id).Nodup)
    (hro : isRootOrder rows ro)
    (hdep : ∀ p c, c ∈ childList rows p → dep p < dep c) :
    check_cycles_and_topological_sort (buildChildDict rows) ro =
      (check_loops_clean, mkMapping (dfsPreorder rows ro)) := by
  have hfun : dictGet (buildChildDict rows) = childList rows :=
    funext (dictGet_buildChildDict rows)
  have hchild : ∀ p c, c ∈ childList rows p →
      c ∈ dfsUniverse (buildChildDict rows) ro ∧ dep p < dep c :=
    fun p c h => ⟨childList_subset_universe rows ro p c h, hdep p c h⟩
  have hcn := childList_nodup hU
  have huniq := childList_unique_parent hU
  have hroNodup : ro.Nodup :=
    (List.Perm.nodup_iff hro).mpr (List.nodup_dedup _)
  have hroots : ∀ r ∈ ro, ∀ p, r ∉ childList rows p := by
    intro r hr
    have : r ∈ (rootIds rows).dedup := (List.Perm.mem_iff hro).mp hr
    exact root_not_in_childList hU (List.mem_dedup.mp this)
  have hndW : (ro.flatMap
      (preOrd (childList rows) (dfsUniverse (buildChildDict rows) ro))).Nodup :=
    dfs_flat_nodup hchild hcn huniq hroNodup hroots
  have hsub : ∀ x ∈ ro.flatMap
      (preOrd (childList rows) (dfsUniverse (buildChildDict rows) ro)),
      x ∈ dfsUniverse (buildChildDict rows) ro := by
    intro x hx
    rcases List.mem_flatMap.mp hx with ⟨r, hr, hxr⟩
    rcases mem_preTrav_src (childList rows) _ r x hxr with h1 | ⟨p, h2⟩
    · subst h1
      unfold dfsUniverse
      rw [List.mem_dedup]
      exact List.mem_append_left _ hr
    · exact childList_subset_universe rows ro p x h2
  have hlen : (ro.flatMap
      (preOrd (childList rows) (dfsUniverse (buildChildDict rows) ro))).length
      ≤ (dfsUniverse (buildChildDict rows) ro).length :=
    List.Subperm.length_le (List.subperm_of_subset hndW hsub)
  have hmain := dfsGo_eq_flat hchild (dfsFuel (buildChildDict rows) ro)
    ro [] [] (by simp) (by simpa using hndW) ?_
  · unfold check_cycles_and_topological_sort
    rw [hfun, hmain]
    simp [dfsPreorder]
  · simp only [List.flatMap_nil, List.nil_append, List.length_nil]
    unfold dfsFuel
    omega

/-! ### Positions inside the visitation list -/

theorem flatMap_seg_of_mem {pre : Int → List Int} {ro : List Int} {r : Int}
    (hr : r ∈ ro) : pre r <:+: ro.flatMap pre := by
  rcases List.append_of_mem hr with ⟨s, t, hst⟩
  refine ⟨s.flatMap pre, t.flatMap pre, ?_⟩
  rw [hst, List.flatMap_append, List.flatMap_cons]
  simp [List.append_assoc]

/-- Every visited node owns a contiguous block of the preorder it appears
in: its own preorder subtree. -/
theorem preOrd_infix_of_mem_preTrav {child : Int → List Int} {U : List Int}
    {d : Int → Nat} (hchild : ∀ p c, c ∈ child p → c ∈ U ∧ d p < d c) :
    ∀ (f : Nat) (r n : Int), hmeas U d r < f → n ∈ preTrav child f r →
      preOrd child U n <:+: preTrav child f r := by
  intro f
  induction f with
  | zero => intro r n h1 h2; cases h2
  | succ f ih =>
    intro r n hm hn
    rcases List.mem_cons.mp hn with h1 | h2
    · subst h1
      have hstab : preOrd child U n = preTrav child (f + 1) n := by
        unfold preOrd
        exact preTrav_stable child U d hchild (U.length + 1) (f + 1) n
          (by have := hmeas_le_length U d n; omega) hm
      rw [hstab]
    · rcases List.mem_flatMap.mp h2 with ⟨c, hcmem, hnc⟩
      have hcn := List.mem_reverse.mp hcmem
      have hcc := hchild r c hcn
      have hmc : hmeas U d c < hmeas U d r := hmeas_lt_of_depth hcc.1 hcc.2
      have hrec := ih c n (by omega) hnc
      refine hrec.trans ?_
      rcases List.append_of_mem hcmem with ⟨A, B, hAB⟩
      refine ⟨r :: A.flatMap (preTrav child f), B.flatMap (preTrav child f),
        ?_⟩
      show (r :: A.flatMap (preTrav child f)) ++ preTrav child f c ++
          B.flatMap (preTrav child f) =
        preTrav child (f + 1) r
      rw [show preTrav child (f + 1) r =
        r :: (child r).reverse.flatMap (preTrav child f) from rfl]
      rw [hAB, List.flatMap_append, List.flatMap_cons]
      simp [List.append_assoc]

/-- In a duplicate-free list split into five blocks, anything in the second
block ranks strictly before anything in the fourth. -/
theorem rank_lt_blocks {v : List Int} (hnd : v.Nodup)
    {P B C D E : List Int} (hv : v = P ++ (B ++ (C ++ (D ++ E))))
    {x y : Int} (hx : x ∈ B) (hy : y ∈ D) :
    rankOf v x < rankOf v y := by
  subst hv
  rcases List.nodup_append.mp hnd with ⟨hP, hrest, hdisjP⟩
  rcases List.nodup_append.mp hrest with ⟨hB, hCDE, hdisjB⟩
  rcases List.nodup_append.mp hCDE with ⟨hC, hDE, hdisjC⟩
  have hxrest : x ∈ B ++ (C ++ (D ++ E)) := List.mem_append_left _ hx
  have hxP : x ∉ P := fun hmem => hdisjP hmem hxrest
  have hyD : y ∈ D ++ E := List.mem_append_left _ hy
  have hyCDE : y ∈ C ++ (D ++ E) := List.mem_append_right _ hyD
  have hyrest : y ∈ B ++ (C ++ (D ++ E)) := List.mem_append_right _ hyCDE
  have hyP : y ∉ P := fun hmem => hdisjP hmem hyrest
  have hyB : y ∉ B := fun hmem => hdisjB hmem hyCDE
  have hyC : y ∉ C := fun hmem => hdisjC hmem hyD
  have hrx : rankOf (P ++ (B ++ (C ++ (D ++ E)))) x =
      P.length + rankOf B x := by
    rw [rankOf_append_of_not_mem _ hxP, rankOf_append_of_mem _ hx]
  have hry : rankOf (P ++ (B ++ (C ++ (D ++ E)))) y =
      P.length + (B.length + (C.length + rankOf (D ++ E) y)) := by
    rw [rankOf_append_of_not_mem _ hyP, rankOf_append_of_not_mem _ hyB,
      rankOf_append_of_not_mem _ hyC]
  have hxlt : rankOf B x < B.length := rankOf_lt_of_mem hx
  omega

/-! ### Claim C2, amended -/

/-- C2 amended: for every acyclic input (depth certificate `dep`) with
unique node identifiers whose nodes are all reachable from an iterated
root, the traversal completes and visits each node's children in REVERSE of
their child-list (input) order: the visitation list is the concatenation of
the reversed-children preorders (first conjunct), which satisfy the
reversed-children recursion (second conjunct); the canonical number is the
visitation rank plus one (third conjunct); and whenever `c` appears before
`c2` in a node's child list, every node of the subtree of the later-input
child `c2` is ranked strictly before every node of the subtree of the
earlier-input child `c` (fourth conjunct). -/
theorem c2_amended_reverse_child_order (rows : List NodeRec) (ro : List Int)
    (dep : Int → Nat)
    (hU : (rows.map fun row => row.node_id).Nodup)
    (hro : isRootOrder rows ro)
    (hdep : ∀ p c, c ∈ childList rows p → dep p < dep c)
    (_hreach : ∀ x ∈ rows.map fun row => row.node_id,
      ∃ r ∈ ro, Reach (childList rows) r x) :
    check_cycles_and_topological_sort (buildChildDict rows) ro =
      (check_loops_clean, mkMapping (dfsPreorder rows ro)) ∧
    (∀ n, preOrd (childList rows) (dfsUniverse (buildChildDict rows) ro) n =
      n :: (childList rows n).reverse.flatMap
        (preOrd (childList rows) (dfsUniverse (buildChildDict rows) ro))) ∧
    (∀ x ∈ dfsPreorder rows ro,
      alookup (mkMapping (dfsPreorder rows ro)) x =
        some (rankOf (dfsPreorder rows ro) x + 1)) ∧
    (∀ n ∈ dfsPreorder rows ro, ∀ l1 c l2 c2 l3,
      childList rows n = l1 ++ (c :: (l2 ++ (c2 :: l3))) →
      ∀ x ∈ preOrd (childList rows) (dfsUniverse (buildChildDict rows) ro) c2,
      ∀ y ∈ preOrd (childList rows) (dfsUniverse (buildChildDict rows) ro) c,
        rankOf (dfsPreorder rows ro) x < rankOf (dfsPreorder rows ro) y) := by
  have hchild : ∀ p c, c ∈ childList rows p →
      c ∈ dfsUniverse (buildChildDict rows) ro ∧ dep p < dep c :=
    fun p c h => ⟨childList_subset_universe rows ro p c h, hdep p c h⟩
  have hcn := childList_nodup hU
  have huniq := childList_unique_parent hU
  have hroNodup : ro.Nodup :=
    (List.Perm.nodup_iff hro).mpr (List.nodup_dedup _)
  have hroots : ∀ r ∈ ro, ∀ p, r ∉ childList rows p := by
    intro r hr
    have hmem : r ∈ (rootIds rows).dedup := (List.Perm.mem_iff hro).mp hr
    exact root_not_in_childList hU (List.mem_dedup.mp hmem)
  have hndv : (dfsPreorder rows ro).Nodup :=
    dfs_flat_nodup hchild hcn huniq hroNodup hroots
  refine ⟨check_cycles_eq_preorder rows ro dep hU hro hdep,
    fun n => preOrd_unfold _ _ dep hchild n,
    fun x hx => alookup_mkMapping hx, ?_⟩
  intro n hn l1 c l2 c2 l3 hcs x hx y hy
  have hninf : preOrd (childList rows) (dfsUniverse (buildChildDict rows) ro) n
      <:+: dfsPreorder rows ro := by
    rcases List.mem_flatMap.mp hn with ⟨r, hr, hnr⟩
    have hmr : hmeas (dfsUniverse (buildChildDict rows) ro) dep r <
        (dfsUniverse (buildChildDict rows) ro).length + 1 := by
      have := hmeas_le_length (dfsUniverse (buildChildDict rows) ro) dep r
      omega
    have h1 := preOrd_infix_of_mem_preTrav hchild
      ((dfsUniverse (buildChildDict rows) ro).length + 1) r n hmr hnr
    exact h1.trans (flatMap_seg_of_mem hr)
  rcases hninf with ⟨Pfx, Sfx, hPS⟩
  have hunf := preOrd_unfold (childList rows)
    (dfsUniverse (buildChildDict rows) ro) dep hchild n
  have hrev : (childList rows n).reverse =
      l3.reverse ++ (c2 :: (l2.reverse ++ (c :: l1.reverse))) := by
    rw [hcs]
    simp [List.reverse_append, List.append_assoc]
  have hveq : dfsPreorder rows ro =
      (Pfx ++ (n :: l3.reverse.flatMap
        (preOrd (childList rows) (dfsUniverse (buildChildDict rows) ro)))) ++
      ((preOrd (childList rows) (dfsUniverse (buildChildDict rows) ro) c2) ++
        ((l2.reverse.flatMap
          (preOrd (childList rows) (dfsUniverse (buildChildDict rows) ro))) ++
          ((preOrd (childList rows) (dfsUniverse (buildChildDict rows) ro) c) ++
            ((l1.reverse.flatMap
              (preOrd (childList rows)
                (dfsUniverse (buildChildDict rows) ro))) ++ Sfx)))) := by
    rw [← hPS, hunf, hrev]
    rw [List.flatMap_append, List.flatMap_cons, List.flatMap_append,
      List.flatMap_cons]
    simp [List.append_assoc]
  exact rank_lt_blocks hndv hveq hx hy

theorem c2_amended_reverse_child_order_witness :
    check_cycles_and_topological_sort (buildChildDict rowsTwoChildren) [1] =
      (check_loops_clean, mkMapping (dfsPreorder rowsTwoChildren [1])) ∧
    mkMapping (dfsPreorder rowsTwoChildren [1]) = [(1, 1), (3, 2), (2, 3)] := by
  have hdep : ∀ p c, c ∈ childList rowsTwoChildren p → p.toNat < c.toNat := by
    intro p c h
    rcases mem_childList.mp h with ⟨row, hmem, hpar, hne, hid⟩
    simp only [rowsTwoChildren, List.mem_cons, List.not_mem_nil,
      or_false] at hmem
    rcases hmem with h1 | h1 | h1 <;> subst h1 <;> simp_all <;> omega
  have hreach : ∀ x ∈ rowsTwoChildren.map fun row => row.node_id,
      ∃ r ∈ [(1 : Int)], Reach (childList rowsTwoChildren) r x := by
    intro x hx
    simp only [rowsTwoChildren, List.map_cons, List.map_nil, List.mem_cons,
      List.not_mem_nil, or_false] at hx
    rcases hx with h1 | h1 | h1 <;> subst h1
    · exact ⟨1, by decide, Reach.refl 1⟩
    · exact ⟨1, by decide,
        @Reach.step (childList rowsTwoChildren) 1 2 2 (by decide)
          (Reach.refl 2)⟩
    · exact ⟨1, by decide,
        @Reach.step (childList rowsTwoChildren) 1 3 3 (by decide)
          (Reach.refl 3)⟩
  refine ⟨(c2_amended_reverse_child_order rowsTwoChildren [1]
    (fun n => n.toNat) (by decide) (by decide) hdep hreach).1, by decide⟩

/-! ### Claim C9 -/

/-- C9: the relabelling applied by `write_to_swc`.  When the row set is
non-empty and every loaded node has an entry in the canonical mapping, the
non-empty mapping is applied to both identifier columns (first conjunct);
every non-root record's new parent identifier equals the new identifier
assigned to the record carrying its original parent (second conjunct); and
a record whose parent is absent from the mapping gets parent `-1`, the
`fillna(-1)` fallback (third conjunct). -/
theorem c9_write_mapping_round_trip (rows : List NodeRec)
    (d : List (Int × List Int)) (ro : List Int)
    (hrows : rows ≠ [])
    (hall : ∀ row ∈ rows,
      (alookup (check_cycles_and_topological_sort d ro).2
        row.node_id).isSome) :
    write_to_swc_rows (check_cycles_and_topological_sort d ro).2
        (extract_node_relationships rows) =
      (extract_node_relationships rows).map
        (writeRow (check_cycles_and_topological_sort d ro).2) ∧
    (∀ row ∈ extract_node_relationships rows, ¬ row.parent = -1 →
      ∀ prow ∈ extract_node_relationships rows, prow.node_id = row.parent →
        ∃ k : Nat,
          (writeRow (check_cycles_and_topological_sort d ro).2 prow).node_id
            = some (k : Int) ∧
          (writeRow (check_cycles_and_topological_sort d ro).2 row).parent
            = (k : Int)) ∧
    (∀ row ∈ extract_node_relationships rows,
      alookup (check_cycles_and_topological_sort d ro).2 row.parent = none →
      (writeRow (check_cycles_and_topological_sort d ro).2 row).parent
        = -1) := by
  rcases List.exists_mem_of_ne_nil rows hrows with ⟨row0, hrow0⟩
  have hne : (check_cycles_and_topological_sort d ro).2 ≠ [] := by
    intro he
    have := hall row0 hrow0
    rw [he] at this
    simp [alookup, List.find?] at this
  refine ⟨?_, ?_, ?_⟩
  · unfold write_to_swc_rows
    rw [if_neg (by simpa [List.isEmpty_eq_true] using hne)]
  · intro row _ _ prow hprow hpid
    rcases List.mem_map.mp hprow with ⟨orig, horig, heq⟩
    have hid : prow.node_id = orig.node_id := by rw [← heq]; rfl
    rcases Option.isSome_iff_exists.mp (hall orig horig) with ⟨k, hk⟩
    refine ⟨k, ?_, ?_⟩
    · unfold writeRow
      rw [hid, hk]
      rfl
    · unfold writeRow
      rw [← hpid, hid, hk]
  · intro row _ hnone
    unfold writeRow
    rw [hnone]

theorem c9_write_mapping_round_trip_witness :
    write_to_swc_rows
        (check_cycles_and_topological_sort
          (buildChildDict rowsTwoChildren) [1]).2
        (extract_node_relationships rowsTwoChildren) =
      (extract_node_relationships rowsTwoChildren).map
        (writeRow (check_cycles_and_topological_sort
          (buildChildDict rowsTwoChildren) [1]).2) :=
  (c9_write_mapping_round_trip rowsTwoChildren
    (buildChildDict rowsTwoChildren) [1] (by decide) (by decide)).1

end StandardMorph
